import Mathlib

/-!
Verification of the mapfile / logfile algebra and option handling of the
ddrescue-dvdcss data-recovery tool (sources: `ddrescuelog.cc`, `io.cc`,
`main.cc`).  The sblock / domain value types and the Logbook mutators live in
headers that accompany those files; they are modelled here from the design
document (its sections 3, 4.1 and 4.2), while the loops of the three source
files are translated directly.

Conventions: C++ `long long` becomes `Int`; the half-open byte range
`[pos, pos+size)` keeps its fields; a C++ loop that mutates the sblock vector
while iterating becomes a fuel-indexed recursion returning `Option` (`none`
only on fuel exhaustion, which the theorems rule out).  A `--i` immediately
followed by the `for` header's `++i` is rendered as re-entering the loop with
the same index.
-/

/-- Status tags of an sblock, with their mapfile characters
`? * / - +` (`ddrescue.h`, described in section 3 of the design document). -/
inductive Status where
  | non_tried    -- ?
  | non_trimmed  -- *
  | non_split    -- /
  | bad_sector   -- -
  | finished     -- +
  deriving DecidableEq, Repr

/-- Half-open byte range `[pos, pos+size)`; fields are C++ `long long`. -/
structure Block where
  pos : Int
  size : Int
  deriving DecidableEq, Repr

/-- One past the last byte of a block (`Block::end()`). -/
def Block.stop (b : Block) : Int := b.pos + b.size

/-- A block together with a rescue status (`Sblock`). -/
structure Sblock where
  pos : Int
  size : Int
  status : Status
  deriving DecidableEq, Repr

def Sblock.stop (s : Sblock) : Int := s.pos + s.size

def Sblock.toBlock (s : Sblock) : Block := ⟨s.pos, s.size⟩

/-- Status of the byte at position `p` in an sblock vector: the status of the
first sblock whose range contains `p`, `none` if no sblock covers `p`. -/
def statusAt (A : List Sblock) (p : Int) : Option Status :=
  (A.find? (fun s => decide (s.pos ≤ p) && decide (p < s.stop))).map (·.status)

/-- Modelled from the spec: a `Domain` is "an ordered, disjoint sequence of
Blocks representing the bytes the user cares about" (section 3); we carry the
block list itself. `Domain::includes(Block)` holds when one of the domain
blocks entirely contains the given block (section 3: containment against the
ordered disjoint sequence). -/
def domainIncludes (dom : List Block) (b : Block) : Bool :=
  dom.any (fun d => decide (d.pos ≤ b.pos) && decide (b.stop ≤ d.stop))

/-- End of the domain: the end of its last block (0 for the empty domain,
which the tool rejects before reaching any of the loops modelled here). -/
def domainEnd (dom : List Block) : Int :=
  match dom.getLast? with
  | none => 0
  | some d => d.stop

/-- Start of the domain: the position of its first block. -/
def domainPos (dom : List Block) : Int :=
  match dom.head? with
  | none => 0
  | some d => d.pos

/-- Modelled from the spec: `domain < block` means the whole domain lies
before the block (used by every ddrescuelog loop to stop scanning once the
domain has been passed). -/
def domainLt (dom : List Block) (b : Block) : Bool :=
  decide (domainEnd dom ≤ b.pos)

/-- Modelled from the spec: `find_chunk(b, target_status)` over a second
logbook (`Logbook::find_chunk`; block algebra of section 4.1, with the scan
order of section 2: the engine walks the map "finding the next sblock of the
phase's target status").  The block's position is advanced to the first
position at or after `b.pos` lying in an sblock of the wanted status, and the
block is narrowed to that sblock; when no such sblock exists the empty block
is returned.  The caller in `ddrescuelog.cc` checks `b.pos() >= sb.end()`
after the call, which is how a position advanced past the original block is
detected. -/
def find_chunk (B : List Sblock) (b : Block) (st : Status) : Block :=
  if b.size ≤ 0 then b
  else
    match B.find? (fun s => decide (s.status = st) && decide (b.pos < s.stop)) with
    | none => ⟨b.pos, 0⟩
    | some s =>
        let p := max b.pos s.pos
        ⟨p, min b.stop s.stop - p⟩

/-- Modelled from the spec: `change_sblock_status(i, new_status)` "replaces in
place" (section 4.2); merging of equal-status neighbours is performed by the
separate `compact_sblock_vector` pass, which the `ddrescuelog.cc` callers
invoke explicitly after their loops. -/
def change_sblock_status (A : List Sblock) (i : Nat) (st : Status) : List Sblock :=
  match A[i]? with
  | none => A
  | some sb => A.set i { sb with status := st }

/-- Modelled from the spec: `split_sblock_by(pos, i)` "splits sblock `i` at
absolute `pos`, preserving its status on both halves" (section 4.2); a
position outside the interior of the sblock leaves the vector unchanged. -/
def split_sblock_by (A : List Sblock) (pos : Int) (i : Nat) : List Sblock :=
  match A[i]? with
  | none => A
  | some sb =>
      if decide (sb.pos < pos) && decide (pos < sb.stop) then
        A.take i ++ ⟨sb.pos, pos - sb.pos, sb.status⟩ ::
          ⟨pos, sb.stop - pos, sb.status⟩ :: A.drop (i + 1)
      else A

/-- The pieces an sblock is cut into by `change_chunk_status` for chunk `b`:
the part before the chunk, the part inside it (restatused to `st`), and the
part after it, dropping empty pieces. -/
def chunkPieces (b : Block) (st : Status) (s : Sblock) : List Sblock :=
  (if s.pos < b.pos ∧ s.pos < s.stop ∧ b.pos < s.stop then
    [⟨s.pos, min s.stop b.pos - s.pos, s.status⟩] else []) ++
  (if max s.pos b.pos < min s.stop b.stop then
    [⟨max s.pos b.pos, min s.stop b.stop - max s.pos b.pos, st⟩] else []) ++
  (if b.stop < s.stop ∧ s.pos < s.stop ∧ s.pos < b.stop then
    [⟨b.stop, s.stop - b.stop, s.status⟩] else []) ++
  (if s.pos < s.stop ∧ (s.stop ≤ b.pos ∨ b.stop ≤ s.pos) then [s] else [])

/-- Modelled from the spec: `change_chunk_status(block, new_status)` "finds
the sblocks spanning `block`; splits the leftmost and rightmost if the edges
are mid-sblock; rewrites the interior" (section 4.2); compaction is the
separate pass invoked by the callers. -/
def change_chunk_status (A : List Sblock) (b : Block) (st : Status) : List Sblock :=
  if b.size ≤ 0 then A else A.flatMap (chunkPieces b st)

/-- Modelled from the spec: `compact()` is the "idempotent pass that merges
runs of same-status adjacent sblocks" (section 4.2), invoked by
`ddrescuelog.cc` as `compact_sblock_vector` after each rewriting loop.
Merging a run of adjacent equal-status sblocks is associative, so it is
rendered as a right fold. -/
def compact_sblock_vector : List Sblock → List Sblock
  | [] => []
  | s :: r =>
      match compact_sblock_vector r with
      | [] => [s]
      | t :: ts =>
          if s.status = t.status ∧ s.stop = t.pos then
            ⟨s.pos, s.size + t.size, s.status⟩ :: ts
          else s :: t :: ts

/-- The three logic operations of `ddrescuelog.cc` (`enum Mode`, restricted to
the modes `do_logic_ops` accepts). -/
inductive LMode where
  | m_and
  | m_or
  | m_xor
  deriving DecidableEq, Repr

/-- The scan loop of `do_logic_ops` (`ddrescuelog.cc:157-203`): walk the
sblocks of the first logbook, skip those not included in the domain (stopping
once the domain lies behind), and rewrite each included sblock against the
`finished` chunks of the second logbook.  `--i` followed by the loop's `++i`
is re-entry at the same index; `fuel` only bounds the recursion and `none` is
returned when it runs out. -/
def do_logic_ops_loop (dom : List Block) (B : List Sblock) (mode : LMode) :
    Nat → List Sblock → Nat → Option (List Sblock)
  | 0, _, _ => none
  | fuel + 1, A, i =>
    match A[i]? with
    | none => some A
    | some sb =>
      if ¬ domainIncludes dom sb.toBlock then
        if domainLt dom sb.toBlock then some A
        else do_logic_ops_loop dom B mode fuel A (i + 1)
      else
        match mode with
        | .m_and =>
          if sb.status ≠ .finished then do_logic_ops_loop dom B mode fuel A (i + 1)
          else
            let b := find_chunk B sb.toBlock .finished
            if b.size ≤ 0 ∨ sb.stop ≤ b.pos then
              do_logic_ops_loop dom B mode fuel
                (change_sblock_status A i .bad_sector) (i + 1)
            else if b = sb.toBlock then do_logic_ops_loop dom B mode fuel A (i + 1)
            else if b.pos = sb.pos then
              do_logic_ops_loop dom B mode fuel (split_sblock_by A b.stop i) (i + 1)
            else
              do_logic_ops_loop dom B mode fuel
                (change_chunk_status A ⟨sb.pos, b.pos - sb.pos⟩ .bad_sector) i
        | .m_or =>
          if sb.status = .finished then do_logic_ops_loop dom B mode fuel A (i + 1)
          else
            let b := find_chunk B sb.toBlock .finished
            if b.size ≤ 0 ∨ sb.stop ≤ b.pos then do_logic_ops_loop dom B mode fuel A (i + 1)
            else if b = sb.toBlock then
              do_logic_ops_loop dom B mode fuel
                (change_sblock_status A i .finished) (i + 1)
            else if b.pos = sb.pos then
              do_logic_ops_loop dom B mode fuel (change_chunk_status A b .finished) i
            else do_logic_ops_loop dom B mode fuel (split_sblock_by A b.stop i) (i + 1)
        | .m_xor =>
          let st : Status := if sb.status = .finished then .bad_sector else .finished
          let b := find_chunk B sb.toBlock .finished
          if b.size ≤ 0 ∨ sb.stop ≤ b.pos then do_logic_ops_loop dom B mode fuel A (i + 1)
          else if b = sb.toBlock then
            do_logic_ops_loop dom B mode fuel (change_sblock_status A i st) (i + 1)
          else if b.pos = sb.pos then
            do_logic_ops_loop dom B mode fuel (change_chunk_status A b st) i
          else do_logic_ops_loop dom B mode fuel (split_sblock_by A b.stop i) (i + 1)

/-- Byte count of the sblocks of a vector, as a natural number. -/
def sizeSum (A : List Sblock) : Nat := (A.map (fun s => s.size.toNat)).sum

/-- A fuel budget sufficient for `do_logic_ops_loop` on well-formed vectors
(proved where needed). -/
def logicFuel (A : List Sblock) : Nat := 4 * sizeSum A + A.length + 2

/-- `do_logic_ops` (`ddrescuelog.cc:148-209`) minus the file plumbing: run the
scan loop from index 0 and compact the result. -/
def do_logic_ops (dom : List Block) (mode : LMode) (A B : List Sblock) :
    Option (List Sblock) :=
  (do_logic_ops_loop dom B mode (logicFuel A) A 0).map compact_sblock_vector

example :
    do_logic_ops [⟨0, 2 ^ 63 - 1⟩] .m_and
      [⟨0, 4096, .finished⟩, ⟨4096, 4096, .bad_sector⟩]
      [⟨0, 2048, .finished⟩, ⟨2048, 6144, .bad_sector⟩]
    = some [⟨0, 2048, .finished⟩, ⟨2048, 6144, .bad_sector⟩] := by decide

example :
    do_logic_ops [⟨0, 2⟩] .m_xor
      [⟨0, 2, .non_tried⟩]
      [⟨0, 1, .finished⟩, ⟨1, 1, .non_tried⟩]
    = some [⟨0, 1, .bad_sector⟩, ⟨1, 1, .non_tried⟩] := by decide

/-- Mapfile character of a status (the table of section 3). -/
def Status.toChar : Status → Char
  | .non_tried => '?'
  | .non_trimmed => '*'
  | .non_split => '/'
  | .bad_sector => '-'
  | .finished => '+'

/-- The scan loop of `change_types` (`ddrescuelog.cc:218-226`): for every
sblock included in the domain, look the status up in `types1`
(`std::string::find`, which yields an out-of-range index when absent) and,
when found, replace it by the status at the same index of `types2`.  The
vector's length never changes, so `fuel = length + 1` always suffices. -/
def change_types_loop (dom : List Block) (types1 types2 : List Status) :
    Nat → List Sblock → Nat → Option (List Sblock)
  | 0, _, _ => none
  | fuel + 1, A, i =>
    match A[i]? with
    | none => some A
    | some sb =>
      if ¬ domainIncludes dom sb.toBlock then
        if domainLt dom sb.toBlock then some A
        else change_types_loop dom types1 types2 fuel A (i + 1)
      else
        let j := types1.findIdx (· = sb.status)
        if j < types1.length then
          change_types_loop dom types1 types2 fuel
            (change_sblock_status A i (types2.getD j sb.status)) (i + 1)
        else change_types_loop dom types1 types2 fuel A (i + 1)

/-- `change_types` (`ddrescuelog.cc:212-232`) minus the file plumbing. -/
def change_types (dom : List Block) (types1 types2 : List Status)
    (A : List Sblock) : Option (List Sblock) :=
  (change_types_loop dom types1 types2 (A.length + 1) A 0).map
    compact_sblock_vector

/-- The old-types string of the invert operation — the five status
characters `?`, `*`, `/`, `-`, `+` in that order (`ddrescuelog.cc:618`) —
as statuses. -/
def invert_types1 : List Status :=
  [.non_tried, .non_trimmed, .non_split, .bad_sector, .finished]

/-- The new-types string `"++++-"` of the invert operation
(`ddrescuelog.cc:618`), as statuses. -/
def invert_types2 : List Status :=
  [.finished, .finished, .finished, .finished, .bad_sector]

/-- `ddrescuelog -n` (`m_invert`): `change_types` applied to the old-types
and new-types strings above (`ddrescuelog.cc:618`). -/
def invert_logfile (dom : List Block) (A : List Sblock) : Option (List Sblock) :=
  change_types dom invert_types1 invert_types2 A

/-- The scan loop of `test_if_done` (`ddrescuelog.cc:314-328`): `true` when
every sblock included in the domain is `finished` (stopping early once the
domain lies behind). -/
def test_if_done_loop (dom : List Block) : List Sblock → Bool
  | [] => true
  | sb :: r =>
    if ¬ domainIncludes dom sb.toBlock then
      if domainLt dom sb.toBlock then true else test_if_done_loop dom r
    else if sb.status ≠ Status.finished then false
    else test_if_done_loop dom r

/-- `test_if_done` (`ddrescuelog.cc:308-342`): exit status together with
whether `std::remove` was invoked on the logfile.  `removeOk` stands for the
outcome of that environmental call (`std::remove(...) == 0`). -/
def test_if_done (dom : List Block) (A : List Sblock) (del removeOk : Bool) :
    Int × Bool :=
  if ¬ test_if_done_loop dom A then (1, false)
  else if ¬ del then (0, false)
  else if ¬ removeOk then (1, true)
  else (0, true)

/-- `LLONG_MAX` of `<climits>` on the 64-bit targets the tool is built for. -/
def LLONG_MAX : Int := 2 ^ 63 - 1

/-- One line of standard input as consumed by `create_logfile`'s
`std::scanf( "%lli\n", &block )`: either a parsed integer (`n == 1`) or a
matching failure (`n == 0`); end of file (`n < 0`) is the end of the list. -/
inductive InLine where
  | num (k : Int)
  | bad
  deriving DecidableEq, Repr

/-- The stdin loop of `create_logfile` (`ddrescuelog.cc:285-301`): each
parsed block number is admitted only when `block ≤ LLONG_MAX / hardbs`
(C++ division of two positive values truncates, hence `Int.tdiv`); a failed
parse or an oversized block aborts with exit status 2 (`none` here); an
admitted block whose byte range lies in the domain is rewritten to `type1`. -/
def create_logfile_loop (dom : List Block) (hardbs : Int) (type1 : Status) :
    List InLine → List Sblock → Option (List Sblock)
  | [], A => some A
  | .bad :: _, _ => none
  | .num k :: r, A =>
      if k > Int.tdiv LLONG_MAX hardbs then none
      else
        let b : Block := ⟨k * hardbs, hardbs⟩
        create_logfile_loop dom hardbs type1 r
          (if domainIncludes dom b then change_chunk_status A b type1 else A)

/-- Modelled from the spec: `truncate_vector(end, fill_with_non_tried)`
"shrinks/extends `map_end`" (section 4.2): sblocks past `e` are dropped, one
straddling `e` is cropped, and a shortfall is filled with a `non_tried`
sblock. -/
def truncate_vector (A : List Sblock) (e : Int) : List Sblock :=
  A.flatMap (fun s =>
    if s.stop ≤ e then [s]
    else if s.pos < e then [⟨s.pos, e - s.pos, s.status⟩]
    else []) ++
  (match A.getLast? with
   | none => if 0 < e then [⟨0, e, Status.non_tried⟩] else []
   | some s => if s.stop < e then [⟨s.stop, e - s.stop, Status.non_tried⟩] else [])

/-- `create_logfile` (`ddrescuelog.cc:265-305`) minus the file plumbing.  The
logbook starts as a single `non_tried` sblock covering the whole domain
(modelled from the spec, section 3 lifecycle: "created ... empty (covering
the whole domain with a single `non_tried` sblock)"), the first loop marks
every sblock `type2` (`ddrescuelog.cc:281-282`), then the stdin loop runs and
the vector is truncated to the domain's end. -/
def create_logfile (dom : List Block) (hardbs : Int) (type1 type2 : Status)
    (input : List InLine) : Option (List Sblock) :=
  let A0 : List Sblock :=
    [⟨domainPos dom, domainEnd dom - domainPos dom, Status.non_tried⟩]
  let A1 := A0.map (fun s => { s with status := type2 })
  (create_logfile_loop dom hardbs type1 input A1).map
    (fun A => truncate_vector A (domainEnd dom))

/-- The counters of `do_show_status` (`ddrescuelog.cc:419-425`). -/
structure StatusCounts where
  size_non_tried : Int
  size_non_trimmed : Int
  size_non_split : Int
  size_bad_sector : Int
  size_finished : Int
  areas_non_tried : Int
  areas_non_trimmed : Int
  areas_non_split : Int
  areas_bad_sector : Int
  areas_finished : Int
  errors : Int
  old_status : Status
  first_block : Bool
  good : Bool
  deriving DecidableEq, Repr

/-- Initial counter values (`ddrescuelog.cc:419-425`). -/
def initialCounts : StatusCounts :=
  { size_non_tried := 0, size_non_trimmed := 0, size_non_split := 0
    size_bad_sector := 0, size_finished := 0
    areas_non_tried := 0, areas_non_trimmed := 0, areas_non_split := 0
    areas_bad_sector := 0, areas_finished := 0
    errors := 0, old_status := Status.non_tried
    first_block := true, good := true }

/-- The counting loop of `do_show_status` (`ddrescuelog.cc:429-456`).  An
sblock outside the domain resets `first_block` and `good`; an included sblock
updates the per-status size, opens a new area when the status changed
(`sc`), and counts a new error when a non-tried/non-finished status is met
while `good` holds. -/
def do_show_status_loop (dom : List Block) : List Sblock → StatusCounts → StatusCounts
  | [], c => c
  | sb :: r, c =>
    if ¬ domainIncludes dom sb.toBlock then
      if domainLt dom sb.toBlock then c
      else do_show_status_loop dom r { c with first_block := true, good := true }
    else
      let sc : Bool := c.first_block || decide (sb.status ≠ c.old_status)
      let c1 : StatusCounts := { c with first_block := false }
      let c2 : StatusCounts :=
        match sb.status with
        | .non_tried =>
            { c1 with size_non_tried := c1.size_non_tried + sb.size
                      good := true
                      areas_non_tried :=
                        if sc then c1.areas_non_tried + 1 else c1.areas_non_tried }
        | .finished =>
            { c1 with size_finished := c1.size_finished + sb.size
                      good := true
                      areas_finished :=
                        if sc then c1.areas_finished + 1 else c1.areas_finished }
        | .non_trimmed =>
            { c1 with size_non_trimmed := c1.size_non_trimmed + sb.size
                      good := false
                      errors := if c1.good then c1.errors + 1 else c1.errors
                      areas_non_trimmed :=
                        if sc then c1.areas_non_trimmed + 1 else c1.areas_non_trimmed }
        | .non_split =>
            { c1 with size_non_split := c1.size_non_split + sb.size
                      good := false
                      errors := if c1.good then c1.errors + 1 else c1.errors
                      areas_non_split :=
                        if sc then c1.areas_non_split + 1 else c1.areas_non_split }
        | .bad_sector =>
            { c1 with size_bad_sector := c1.size_bad_sector + sb.size
                      good := false
                      errors := if c1.good then c1.errors + 1 else c1.errors
                      areas_bad_sector :=
                        if sc then c1.areas_bad_sector + 1 else c1.areas_bad_sector }
      do_show_status_loop dom r { c2 with old_status := sb.status }

/-- The `errors` figure reported by `do_show_status`
(`ddrescuelog.cc:417-485`). -/
def do_show_status_errors (dom : List Block) (A : List Sblock) : Int :=
  (do_show_status_loop dom A initialCounts).errors

/-- Spec-side count for claim C6, written from the spec's words: "the number
of maximal runs (in domain order, with domain gaps resetting the run) that
are not `non_tried` and not `finished`".  The boolean argument records
whether the previous sblock continued such a run. -/
def specErrorRuns (dom : List Block) : List Sblock → Bool → Nat
  | [], _ => 0
  | sb :: r, inRun =>
    if domainIncludes dom sb.toBlock then
      if sb.status = Status.non_tried ∨ sb.status = Status.finished then
        specErrorRuns dom r false
      else if inRun then specErrorRuns dom r true
      else 1 + specErrorRuns dom r true
    else specErrorRuns dom r false

/-- Inner loop of `to_badblocks` (`ddrescuelog.cc:359-368`): emit the block
numbers of one sblock, starting at `block` and stopping once
`block * hardbs < limit` fails; a number at or below `last` is suppressed
when equal and is an internal consistency error ("block out of order") when
smaller.  `.error` is the `internal_error` path, `none` is fuel
exhaustion. -/
def to_badblocks_emit (hardbs : Int) :
    Nat → Int → Int → Int → Option (Except Unit (Int × List Int))
  | 0, _, _, _ => none
  | fuel + 1, block, limit, last =>
    if block * hardbs < limit then
      if block > last then
        (to_badblocks_emit hardbs fuel (block + 1) limit block).map
          (fun r => r.map (fun p => (p.1, block :: p.2)))
      else if block < last then some (Except.error ())
      else to_badblocks_emit hardbs fuel (block + 1) limit last
    else some (Except.ok (last, []))

/-- `to_badblocks` (`ddrescuelog.cc:345-371`) minus the file plumbing: walk
the domain-included sblocks; for each whose status is among `blocktypes`,
emit the block numbers `(pos + offset) / hardbs ...` (C++ truncating
division, `Int.tdiv`) of its bytes, de-duplicated against `last_block`.  The
result is the printed list, `.error` the "block out of order" panic. -/
def to_badblocks (dom : List Block) (hardbs offset : Int)
    (blocktypes : List Status) : List Sblock → Int → Option (Except Unit (List Int))
  | [], _ => some (Except.ok [])
  | sb :: r, last =>
    if ¬ domainIncludes dom sb.toBlock then
      if domainLt dom sb.toBlock then some (Except.ok [])
      else to_badblocks dom hardbs offset blocktypes r last
    else if ¬ blocktypes.contains sb.status then
      to_badblocks dom hardbs offset blocktypes r last
    else
      match to_badblocks_emit hardbs (sb.size.toNat + 2)
          (Int.tdiv (sb.pos + offset) hardbs) (sb.stop + offset) last with
      | none => none
      | some (Except.error e) => some (Except.error e)
      | some (Except.ok (last2, out)) =>
          (to_badblocks dom hardbs offset blocktypes r last2).map
            (fun r2 => r2.map (fun l => out ++ l))

/-- `EINTR` of `<cerrno>` on the targets the tool is built for. -/
def EINTR : Int := 4

/-- One `read`/`write` system call outcome: the returned byte count `n` and
the value `errno` was set to when `n < 0` (a successful call leaves the
`errno = 0` written before it untouched). -/
structure RwEvent where
  n : Int
  e : Int
  deriving DecidableEq, Repr

/-- Why a transfer loop of `io.cc` stopped. -/
inductive RwCause where
  | filled
  | eof
  | readErr
  | writeErr
  | seekFail
  deriving DecidableEq, Repr

/-- The transfer loop of `readblock` (`io.cc:68-75`): accumulate successful
reads, stop at end of file or at an error other than `EINTR`; an `EINTR`
failure retries invisibly.  Returns `(sz, errno, cause)`; `none` when the
event list is exhausted mid-loop. -/
def readblock_loop (size : Int) : List RwEvent → Int → Option (Int × Int × RwCause)
  | [], sz => if size ≤ sz then some (sz, 0, RwCause.filled) else none
  | ev :: r, sz =>
    if size ≤ sz then some (sz, 0, RwCause.filled)
    else if ev.n > 0 then readblock_loop size r (sz + ev.n)
    else if ev.n = 0 then some (sz, 0, RwCause.eof)
    else if ev.e ≠ EINTR then some (sz, ev.e, RwCause.readErr)
    else readblock_loop size r sz

/-- `readblock` (`io.cc:62-77`): seek, then run the transfer loop from
`sz = 0`.  A failed `lseek` skips the loop and returns 0 bytes with the
seek's `errno`. -/
def readblock (seekOk : Bool) (seekErrno : Int) (size : Int)
    (evs : List RwEvent) : Option (Int × Int × RwCause) :=
  if seekOk then readblock_loop size evs 0
  else some (0, seekErrno, RwCause.seekFail)

/-- The transfer loop of `writeblock` (`io.cc:143-149`): accumulate
successful writes; an error other than `EINTR` stops the loop; an `EINTR`
failure — and also a write returning 0 — retries invisibly. -/
def writeblock_loop (size : Int) : List RwEvent → Int → Option (Int × Int × RwCause)
  | [], sz => if size ≤ sz then some (sz, 0, RwCause.filled) else none
  | ev :: r, sz =>
    if size ≤ sz then some (sz, 0, RwCause.filled)
    else if ev.n > 0 then writeblock_loop size r (sz + ev.n)
    else if ev.n < 0 ∧ ev.e ≠ EINTR then some (sz, ev.e, RwCause.writeErr)
    else writeblock_loop size r sz

/-- `writeblock` (`io.cc:137-151`): seek, then run the transfer loop from
`sz = 0`. -/
def writeblock (seekOk : Bool) (seekErrno : Int) (size : Int)
    (evs : List RwEvent) : Option (Int × Int × RwCause) :=
  if seekOk then writeblock_loop size evs 0
  else some (0, seekErrno, RwCause.seekFail)

/-- An event is an `EINTR`-interrupted system call. -/
def RwEvent.isEintr (ev : RwEvent) : Bool :=
  decide (ev.n < 0) && decide (ev.e = EINTR)

/-- `Rb_options::default_skipbs`: 64 KiB (modelled from the spec, section
4.5: "minimum `skipbs` (default 64 KiB, not smaller)"). -/
def default_skipbs : Int := 65536

/-- `Rb_options::max_max_skipbs`: 1 GiB (modelled from the spec, section
4.5: "maximum `max_skipbs` (bounded by implementation, at most 1 GiB)"). -/
def max_max_skipbs : Int := 2 ^ 30

/-- The two `Rb_options` fields touched by `parse_skipbs`; their constructor
defaults are `default_skipbs` and `max_max_skipbs` (modelled from the
spec, section 4.5). -/
structure RbOpts where
  skipbs : Int
  max_skipbs : Int
  deriving DecidableEq, Repr

def initialRbOpts : RbOpts :=
  { skipbs := default_skipbs, max_skipbs := max_max_skipbs }

/-- `getnum`'s range check (`main_common.cc`, modelled from the spec's
failure table: a domain-validation error exits with status 1): the parsed
value must lie in `[llo, lhi]`. -/
def getnum_check (v llo lhi : Int) : Option Int :=
  if llo ≤ v ∧ v ≤ lhi then some v else none

/-- `parse_skipbs` (`main.cc:677-697`).  The argument `-K [<i>][,<max>]` is
given as the parsed initial value (absent when the argument starts with a
comma) and the parsed maximum (absent when there is no comma).  The initial
value is range-checked against `[0, max_max_skipbs]`, the maximum against
`[default_skipbs, max_max_skipbs]`; then a nonzero initial size below 64 KiB
or an initial size above the maximum is rejected.  `none` is `std::exit(1)`. -/
def parse_skipbs (iniVal : Option Int) (maxVal : Option Int) (r : RbOpts) :
    Option RbOpts :=
  (match iniVal with
   | none => some r
   | some v =>
      (getnum_check v 0 max_max_skipbs).map (fun x => { r with skipbs := x })).bind
  (fun r1 =>
    (match maxVal with
     | none => some r1
     | some m =>
        (getnum_check m default_skipbs max_max_skipbs).map
          (fun x => { r1 with max_skipbs := x })).bind
    (fun r2 =>
      if 0 < r2.skipbs ∧ r2.skipbs < default_skipbs then none
      else if r2.skipbs > r2.max_skipbs then none
      else some r2))

/-- The `main` loop events of `main.cc` that touch the sector size: a
`-b`/`--sector-size` option with its parsed argument (`main.cc:822`), the
`--dvd` option (`main.cc:870`), and any other option. -/
inductive MainEv where
  | evB (v : Int)
  | evDvd
  | evOther
  deriving DecidableEq, Repr

/-- The sector-size state of `main`: `hardbs` and `hardbs_at_default`
(`main.cc:733-734`). -/
structure HardbsState where
  hardbs : Int
  hardbs_at_default : Bool
  deriving DecidableEq, Repr

def initialHardbsState : HardbsState :=
  { hardbs := 512, hardbs_at_default := true }

/-- One step of the option loop of `main` (`main.cc:818-882`), restricted to
the state it keeps for the sector size: `case 'b'` assigns `hardbs` only when
`hardbs_at_default` is already false and always clears the flag
(`main.cc:822`); `--dvd` sets `hardbs = 2048` while the flag still holds
(`main.cc:870`). -/
def hardbs_step (s : HardbsState) : MainEv → HardbsState
  | .evB v =>
      { hardbs := if ¬ s.hardbs_at_default then v else s.hardbs
        hardbs_at_default := false }
  | .evDvd =>
      { s with hardbs := if s.hardbs_at_default then 2048 else s.hardbs }
  | .evOther => s

/-- The sector size after the option loop and the fix-up
`if( hardbs < 1 ) hardbs = default_hardbs` of `main.cc:885`. -/
def final_hardbs (evs : List MainEv) : Int :=
  let s := evs.foldl hardbs_step initialHardbsState
  if s.hardbs < 1 then 512 else s.hardbs

/-! ### Invariants of loaded mapfiles

Section 3 of the design document: the sblocks of a mapbook are adjacent
(`S[i].pos + S[i].size == S[i+1].pos`), have positive sizes, and the domain
is an ordered sequence of blocks.  These are hypotheses of the generic
theorems below; every mapfile accepted by the parser satisfies them. -/

/-- Adjacent sblocks touch. -/
def SbChain (A : List Sblock) : Prop :=
  List.Chain' (fun s t => s.stop = t.pos) A

/-- Every sblock has a positive size. -/
def PosSizes (A : List Sblock) : Prop := ∀ s ∈ A, 0 < s.size

/-- Every domain block ends no later than the domain's end (true of the
ordered block sequence a `Domain` holds). -/
def DomBounded (dom : List Block) : Prop :=
  ∀ d ∈ dom, d.stop ≤ domainEnd dom

theorem sbChain_cons {sb : Sblock} {r : List Sblock} (h : SbChain (sb :: r)) :
    SbChain r := (List.chain'_cons'.mp h).2

theorem posSizes_cons {sb : Sblock} {r : List Sblock} (h : PosSizes (sb :: r)) :
    PosSizes r := fun s hs => h s (List.mem_cons_of_mem _ hs)

/-- In a chained vector with nonnegative sizes, every member starts at or
after the head. -/
theorem chain_pos_mono {sb : Sblock} {r : List Sblock}
    (hc : SbChain (sb :: r)) (hs : ∀ s ∈ sb :: r, 0 ≤ s.size) :
    ∀ s ∈ sb :: r, sb.pos ≤ s.pos := by
  induction r generalizing sb with
  | nil =>
      intro s hsmem
      rcases List.mem_singleton.mp hsmem with rfl
      exact le_refl _
  | cons t r ih =>
      intro s hsmem
      have hadj : sb.stop = t.pos := (List.chain'_cons.mp hc).1
      have hc2 : SbChain (t :: r) := (List.chain'_cons.mp hc).2
      have hs2 : ∀ u ∈ t :: r, 0 ≤ u.size :=
        fun u hu => hs u (List.mem_cons_of_mem _ hu)
      have hsb : sb.pos ≤ t.pos := by
        have := hs sb (List.mem_cons_self _ _)
        have : sb.pos ≤ sb.stop := by
          simp only [Sblock.stop]; omega
        omega
      rcases List.mem_cons.mp hsmem with rfl | hmem
      · exact le_refl _
      · rcases List.mem_cons.mp hmem with rfl | hmem2
        · exact hsb
        · exact le_trans hsb (ih hc2 hs2 s (List.mem_cons_of_mem _ hmem2))

/-- Once the domain lies entirely before an sblock, no sblock from there on
is included in it. -/
theorem not_included_after_domain {dom : List Block} {sb : Sblock}
    {r : List Sblock} (hdom : DomBounded dom)
    (hc : SbChain (sb :: r)) (hp : PosSizes (sb :: r))
    (hlt : domainLt dom sb.toBlock = true) :
    ∀ s ∈ sb :: r, domainIncludes dom s.toBlock = false := by
  intro s hsmem
  have hend : domainEnd dom ≤ sb.pos := by
    simpa [domainLt, Sblock.toBlock] using hlt
  have hpos : sb.pos ≤ s.pos :=
    chain_pos_mono hc (fun u hu => le_of_lt (hp u hu)) s hsmem
  have hsz : 0 < s.size := hp s hsmem
  by_contra hinc
  rw [Bool.not_eq_false, domainIncludes, List.any_eq_true] at hinc
  obtain ⟨d, hd, hdle⟩ := hinc
  rw [Bool.and_eq_true, decide_eq_true_eq, decide_eq_true_eq] at hdle
  have h1 : d.stop ≤ domainEnd dom := hdom d hd
  have h2 : s.toBlock.stop ≤ d.stop := hdle.2
  simp only [Sblock.toBlock, Block.stop] at h1 h2
  omega

/-! ### Claim C2 — the first `-b` is ignored -/

theorem hardbs_foldl_noB_default {evs : List MainEv} {h : Int}
    (hnb : ∀ v, MainEv.evB v ∉ evs) :
    evs.foldl hardbs_step { hardbs := h, hardbs_at_default := true }
      = { hardbs := if MainEv.evDvd ∈ evs then 2048 else h
          hardbs_at_default := true } := by
  induction evs generalizing h with
  | nil => simp
  | cons ev r ih =>
      cases ev with
      | evB v => exact absurd (List.mem_cons_self _ _) (fun hmem => hnb v hmem)
      | evDvd =>
          have hnb2 : ∀ v, MainEv.evB v ∉ r :=
            fun v hv => hnb v (List.mem_cons_of_mem _ hv)
          simp [List.foldl_cons, hardbs_step, ih hnb2]
      | evOther =>
          have hnb2 : ∀ v, MainEv.evB v ∉ r :=
            fun v hv => hnb v (List.mem_cons_of_mem _ hv)
          simp [List.foldl_cons, hardbs_step, ih hnb2, List.mem_cons]

theorem hardbs_foldl_noB_fixed {evs : List MainEv} {s : HardbsState}
    (hnb : ∀ v, MainEv.evB v ∉ evs) (hflag : s.hardbs_at_default = false) :
    evs.foldl hardbs_step s = s := by
  obtain ⟨h, flag⟩ := s
  simp only at hflag
  subst hflag
  induction evs with
  | nil => simp
  | cons ev r ih =>
      cases ev with
      | evB v => exact absurd (List.mem_cons_self _ _) (fun hmem => hnb v hmem)
      | evDvd =>
          have hnb2 : ∀ v, MainEv.evB v ∉ r :=
            fun v hv => hnb v (List.mem_cons_of_mem _ hv)
          simpa [List.foldl_cons, hardbs_step] using ih hnb2
      | evOther =>
          have hnb2 : ∀ v, MainEv.evB v ∉ r :=
            fun v hv => hnb v (List.mem_cons_of_mem _ hv)
          simpa [List.foldl_cons, hardbs_step] using ih hnb2

/-- C2: in the option loop of `main.cc`, the first occurrence of
`-b`/`--sector-size` never assigns the sector size (its argument is
discarded and only `hardbs_at_default` is cleared); the sector size is
assigned from the argument only on the second and later occurrences; hence a
command line with a single `-b N` runs with sector size 512, or 2048 when
`--dvd` was given while the sector size was still at its default. -/
theorem first_sector_size_option_ignored :
    (∀ (pre : List MainEv) (n : Int), (∀ v, MainEv.evB v ∉ pre) →
      ((pre ++ [MainEv.evB n]).foldl hardbs_step initialHardbsState).hardbs
        = (pre.foldl hardbs_step initialHardbsState).hardbs)
  ∧ (∀ (s : HardbsState) (n : Int), s.hardbs_at_default = false →
      (hardbs_step s (MainEv.evB n)).hardbs = n)
  ∧ (∀ (pre post : List MainEv) (n : Int),
      (∀ v, MainEv.evB v ∉ pre) → (∀ v, MainEv.evB v ∉ post) →
      final_hardbs (pre ++ MainEv.evB n :: post)
        = if MainEv.evDvd ∈ pre then 2048 else 512) := by
  refine ⟨?_, ?_, ?_⟩
  · intro pre n hnb
    rw [List.foldl_append,
      show initialHardbsState = { hardbs := 512, hardbs_at_default := true } from rfl,
      hardbs_foldl_noB_default hnb]
    simp [hardbs_step]
  · intro s n hflag
    simp [hardbs_step, hflag]
  · intro pre post n hnbPre hnbPost
    simp only [final_hardbs]
    rw [show initialHardbsState = { hardbs := 512, hardbs_at_default := true } from rfl,
      List.foldl_append, hardbs_foldl_noB_default hnbPre,
      List.foldl_cons]
    have hstep :
        hardbs_step
          { hardbs := if MainEv.evDvd ∈ pre then 2048 else 512
            hardbs_at_default := true } (MainEv.evB n)
        = { hardbs := if MainEv.evDvd ∈ pre then 2048 else 512
            hardbs_at_default := false } := by
      simp [hardbs_step]
    rw [hstep, hardbs_foldl_noB_fixed hnbPost rfl]
    by_cases hdvd : MainEv.evDvd ∈ pre <;> simp [hdvd]

/-- Witness for C2 at a concrete command line: `--dvd -b 4096` keeps sector
size 2048, and a second `-b` does assign. -/
theorem first_sector_size_option_ignored_witness :
    final_hardbs [MainEv.evDvd, MainEv.evB 4096] = 2048
    ∧ (hardbs_step { hardbs := 512, hardbs_at_default := false }
        (MainEv.evB 4096)).hardbs = 4096 := by
  constructor
  · have h := first_sector_size_option_ignored.2.2 [MainEv.evDvd] [] 4096
      (by intro v hv; simp at hv) (by intro v hv; simp at hv)
    simpa using h
  · exact first_sector_size_option_ignored.2.1 _ 4096 rfl

/-! ### Claim C10 — skip-size validation -/

/-- C10: `parse_skipbs` rejects (exit status 1, `none` here) every initial
skip size that is nonzero and smaller than 64 KiB and every initial skip
size larger than the configured maximum (whether that is the parsed
`,<max>` argument, the default maximum, or `max_max_skipbs` enforced by
`getnum`); an initial skip size of exactly 0 is accepted, which is the
value that disables skipping. -/
theorem parse_skipbs_limits :
    (∀ (mv : Option Int) (r : RbOpts) (v : Int),
      0 < v → v < 65536 → parse_skipbs (some v) mv r = none)
  ∧ (∀ (mv : Option Int) (r r2 : RbOpts) (v : Int),
      parse_skipbs (some v) mv r = some r2 →
      r2.skipbs = v ∧ v ≤ r2.max_skipbs ∧ (v = 0 ∨ 65536 ≤ v)
        ∧ v ≤ max_max_skipbs)
  ∧ parse_skipbs (some 0) none initialRbOpts
      = some { skipbs := 0, max_skipbs := max_max_skipbs } := by
  refine ⟨?_, ?_, ?_⟩
  · intro mv r v hv0 hvlt
    have h1 : (0 : Int) ≤ v := le_of_lt hv0
    have h2 : v ≤ max_max_skipbs := by simp only [max_max_skipbs]; omega
    have h3 : 0 < v ∧ v < default_skipbs :=
      ⟨hv0, by simp only [default_skipbs]; omega⟩
    cases mv with
    | none => simp [parse_skipbs, getnum_check, h1, h2, h3]
    | some m =>
        by_cases hm : default_skipbs ≤ m ∧ m ≤ max_max_skipbs
        · simp [parse_skipbs, getnum_check, h1, h2, h3, hm]
        · simp [parse_skipbs, getnum_check, h1, h2, hm]
  · intro mv r r2 v hres
    by_cases hchk : 0 ≤ v ∧ v ≤ max_max_skipbs
    · cases mv with
      | none =>
          simp only [parse_skipbs, getnum_check, hchk, and_self, if_true,
            Option.map_some', Option.some_bind] at hres
          split_ifs at hres with hbad hgt
          rw [Option.some_inj] at hres
          subst hres
          simp only at hbad hgt
          refine ⟨rfl, ?_, ?_, hchk.2⟩
          · show v ≤ r.max_skipbs
            omega
          · simp only [default_skipbs] at hbad
            omega
      | some m =>
          by_cases hm : default_skipbs ≤ m ∧ m ≤ max_max_skipbs
          · simp only [parse_skipbs, getnum_check, hchk, hm, and_self, if_true,
              Option.map_some', Option.some_bind] at hres
            split_ifs at hres with hbad hgt
            rw [Option.some_inj] at hres
            subst hres
            simp only at hbad hgt
            refine ⟨rfl, ?_, ?_, hchk.2⟩
            · show v ≤ m
              omega
            · simp only [default_skipbs] at hbad
              omega
          · simp [parse_skipbs, getnum_check, hchk, hm] at hres
    · simp [parse_skipbs, getnum_check, hchk] at hres
  · decide

/-- Witness for C10 at concrete arguments: `-K 1024` (nonzero, below 64 KiB)
is rejected, and an accepted value satisfies the stated bounds. -/
theorem parse_skipbs_limits_witness :
    parse_skipbs (some 1024) none initialRbOpts = none
    ∧ parse_skipbs (some 0) none initialRbOpts
        = some { skipbs := 0, max_skipbs := max_max_skipbs } := by
  constructor
  · exact parse_skipbs_limits.1 none initialRbOpts 1024 (by decide) (by decide)
  · exact parse_skipbs_limits.2.2

/-! ### Claim C7 — XOR: evaluation at the failing input -/

/-- C7: evaluation of the XOR operation at the failing input
`A = {0,2,?}`, `B = {0,1,+},{1,1,?}` over the domain `[0,2)`.  Byte 0 is
`finished` in exactly one of A and B (in B only), so the claimed per-byte
XOR semantics demand `finished`; the code instead leaves it `bad_sector`,
because the `change_chunk_status( b, st ); --i;` branch
(`ddrescuelog.cc:197-198`) rewrites the prefix `[0,1)` to `finished` and the
revisited iteration — for which the prefix is now wholly `finished` in B —
flips it a second time, to `bad_sector`. -/
theorem xor_flips_partial_overlap_twice :
    do_logic_ops [⟨0, 2⟩] .m_xor
      [⟨0, 2, .non_tried⟩]
      [⟨0, 1, .finished⟩, ⟨1, 1, .non_tried⟩]
      = some [⟨0, 1, .bad_sector⟩, ⟨1, 1, .non_tried⟩]
    ∧ statusAt [⟨0, 2, .non_tried⟩] 0 ≠ some .finished
    ∧ statusAt [⟨0, 1, .finished⟩, ⟨1, 1, .non_tried⟩] 0 = some .finished
    ∧ statusAt [⟨0, 1, .bad_sector⟩, ⟨1, 1, .non_tried⟩] 0 ≠ some .finished := by
  decide

/-! ### Claim C4 — done-status / delete-if-done -/

theorem test_if_done_loop_iff {dom : List Block} {A : List Sblock}
    (hdom : DomBounded dom) (hc : SbChain A) (hp : PosSizes A) :
    test_if_done_loop dom A = true ↔
      ∀ sb ∈ A, domainIncludes dom sb.toBlock = true →
        sb.status = Status.finished := by
  induction A with
  | nil => simp [test_if_done_loop]
  | cons sb r ih =>
      have ihr := ih (sbChain_cons hc) (posSizes_cons hp)
      by_cases hinc : domainIncludes dom sb.toBlock = true
      · by_cases hfin : sb.status = Status.finished
        · have hstep : test_if_done_loop dom (sb :: r) = test_if_done_loop dom r := by
            simp [test_if_done_loop, hinc, hfin]
          rw [hstep, ihr]
          constructor
          · intro h s hs hi
            rcases List.mem_cons.mp hs with rfl | hmem
            · exact hfin
            · exact h s hmem hi
          · intro h s hs hi
            exact h s (List.mem_cons_of_mem _ hs) hi
        · have hstep : test_if_done_loop dom (sb :: r) = false := by
            simp [test_if_done_loop, hinc, hfin]
          rw [hstep]
          constructor
          · intro h
            exact absurd h (by simp)
          · intro h
            exact absurd (h sb (List.mem_cons_self _ _) hinc) hfin
      · have hincF : domainIncludes dom sb.toBlock = false := by
          simpa using hinc
        by_cases hlt : domainLt dom sb.toBlock = true
        · have hafter := not_included_after_domain hdom hc hp hlt
          have hstep : test_if_done_loop dom (sb :: r) = true := by
            simp [test_if_done_loop, hincF, hlt]
          rw [hstep]
          refine ⟨fun _ s hs hi => ?_, fun _ => rfl⟩
          rw [hafter s hs] at hi
          exact absurd hi (by simp)
        · have hltF : domainLt dom sb.toBlock = false := by
            simpa using hlt
          have hstep : test_if_done_loop dom (sb :: r) = test_if_done_loop dom r := by
            simp [test_if_done_loop, hincF, hltF]
          rw [hstep, ihr]
          constructor
          · intro h s hs hi
            rcases List.mem_cons.mp hs with rfl | hmem
            · rw [hincF] at hi
              exact absurd hi (by simp)
            · exact h s hmem hi
          · intro h s hs hi
            exact h s (List.mem_cons_of_mem _ hs) hi

/-- C4: `--done-status` returns exit status 0 exactly when every sblock
included in the effective domain is `finished` (so a mapfile whose single
sblock `{0,N,+}` covers the full domain returns 0, and any non-finished
sblock in the domain makes it return 1); with `--delete-if-done` the unlink
is attempted exactly when that test succeeds, and a failed unlink yields
exit status 1. -/
theorem test_if_done_correct (dom : List Block) (A : List Sblock)
    (removeOk : Bool) (hdom : DomBounded dom) (hc : SbChain A)
    (hp : PosSizes A) :
    ((test_if_done dom A false removeOk).1 = 0 ↔
      ∀ sb ∈ A, domainIncludes dom sb.toBlock = true →
        sb.status = Status.finished)
  ∧ ((test_if_done dom A true removeOk).2 = true ↔
      ∀ sb ∈ A, domainIncludes dom sb.toBlock = true →
        sb.status = Status.finished)
  ∧ ((∀ sb ∈ A, domainIncludes dom sb.toBlock = true →
        sb.status = Status.finished) → removeOk = false →
      (test_if_done dom A true removeOk).1 = 1) := by
  have hloop := test_if_done_loop_iff hdom hc hp
  refine ⟨?_, ?_, ?_⟩
  · rw [← hloop]
    by_cases h : test_if_done_loop dom A = true
    · simp [test_if_done, h]
    · simp [test_if_done, h]
  · rw [← hloop]
    by_cases h : test_if_done_loop dom A = true
    · cases removeOk <;> simp [test_if_done, h]
    · cases removeOk <;> simp [test_if_done, h]
  · intro hall hrm
    rw [← hloop] at hall
    subst hrm
    simp [test_if_done, hall]

/-- Witness for C4: the mapfile `{0,4096,+}` over the domain `[0,4096)` is
done (exit 0); with deletion requested and the unlink failing, exit is 1. -/
theorem test_if_done_correct_witness :
    (test_if_done [⟨0, 4096⟩] [⟨0, 4096, .finished⟩] false true).1 = 0
    ∧ (test_if_done [⟨0, 4096⟩] [⟨0, 4096, .finished⟩] true false).1 = 1 := by
  have h := test_if_done_correct [⟨0, 4096⟩] [⟨0, 4096, .finished⟩] true
    (by intro d hd; simp [domainEnd] at hd ⊢; simp [hd])
    (by simp [SbChain]) (by intro s hs; simp at hs; simp [hs])
  have h2 := test_if_done_correct [⟨0, 4096⟩] [⟨0, 4096, .finished⟩] false
    (by intro d hd; simp [domainEnd] at hd ⊢; simp [hd])
    (by simp [SbChain]) (by intro s hs; simp at hs; simp [hs])
  constructor
  · exact h.1.mpr (by intro s hs hi; simp at hs; simp [hs])
  · exact h2.2.2 (by intro s hs hi; simp at hs; simp [hs]) rfl

/-! ### Claim C9 — EINTR handling in the `io.cc` transfer loops -/

theorem readblock_loop_full {size sz : Int} (evs : List RwEvent)
    (h : size ≤ sz) : readblock_loop size evs sz = some (sz, 0, RwCause.filled) := by
  cases evs with
  | nil => rw [readblock_loop, if_pos h]
  | cons ev r => rw [readblock_loop, if_pos h]

theorem readblock_loop_cons {size sz : Int} (ev : RwEvent) (r : List RwEvent)
    (h : ¬ size ≤ sz) :
    readblock_loop size (ev :: r) sz =
      if ev.n > 0 then readblock_loop size r (sz + ev.n)
      else if ev.n = 0 then some (sz, 0, RwCause.eof)
      else if ev.e ≠ EINTR then some (sz, ev.e, RwCause.readErr)
      else readblock_loop size r sz := by
  rw [readblock_loop, if_neg h]

theorem writeblock_loop_full {size sz : Int} (evs : List RwEvent)
    (h : size ≤ sz) : writeblock_loop size evs sz = some (sz, 0, RwCause.filled) := by
  cases evs with
  | nil => rw [writeblock_loop, if_pos h]
  | cons ev r => rw [writeblock_loop, if_pos h]

theorem writeblock_loop_cons {size sz : Int} (ev : RwEvent) (r : List RwEvent)
    (h : ¬ size ≤ sz) :
    writeblock_loop size (ev :: r) sz =
      if ev.n > 0 then writeblock_loop size r (sz + ev.n)
      else if ev.n < 0 ∧ ev.e ≠ EINTR then some (sz, ev.e, RwCause.writeErr)
      else writeblock_loop size r sz := by
  rw [writeblock_loop, if_neg h]

theorem readblock_loop_filter_eintr (size : Int) (evs : List RwEvent) :
    ∀ sz, readblock_loop size (evs.filter (fun ev => ! ev.isEintr)) sz
      = readblock_loop size evs sz := by
  induction evs with
  | nil => intro sz; rfl
  | cons ev r ih =>
      intro sz
      by_cases hfull : size ≤ sz
      · rw [readblock_loop_full _ hfull, readblock_loop_full _ hfull]
      · by_cases hkeep : ev.isEintr
        · have h2 := hkeep
          simp only [RwEvent.isEintr, Bool.and_eq_true, decide_eq_true_eq] at h2
          have hn : ev.n < 0 := h2.1
          have he : ev.e = EINTR := h2.2
          have hfil : (ev :: r).filter (fun ev => ! ev.isEintr)
              = r.filter (fun ev => ! ev.isEintr) := by
            simp [List.filter_cons, hkeep]
          rw [hfil, ih sz, readblock_loop_cons _ _ hfull,
            if_neg (by omega : ¬ ev.n > 0), if_neg (by omega : ¬ ev.n = 0),
            if_neg (by simp [he] : ¬ ev.e ≠ EINTR)]
        · have hfil : (ev :: r).filter (fun ev => ! ev.isEintr)
              = ev :: r.filter (fun ev => ! ev.isEintr) := by
            simp [List.filter_cons, hkeep]
          rw [hfil, readblock_loop_cons _ _ hfull, readblock_loop_cons _ _ hfull]
          by_cases h1 : ev.n > 0
          · rw [if_pos h1, if_pos h1, ih]
          · rw [if_neg h1, if_neg h1]
            by_cases h2 : ev.n = 0
            · rw [if_pos h2, if_pos h2]
            · rw [if_neg h2, if_neg h2]
              by_cases h3 : ev.e ≠ EINTR
              · rw [if_pos h3, if_pos h3]
              · rw [if_neg h3, if_neg h3, ih]

theorem writeblock_loop_filter_eintr (size : Int) (evs : List RwEvent) :
    ∀ sz, writeblock_loop size (evs.filter (fun ev => ! ev.isEintr)) sz
      = writeblock_loop size evs sz := by
  induction evs with
  | nil => intro sz; rfl
  | cons ev r ih =>
      intro sz
      by_cases hfull : size ≤ sz
      · rw [writeblock_loop_full _ hfull, writeblock_loop_full _ hfull]
      · by_cases hkeep : ev.isEintr
        · have h2 := hkeep
          simp only [RwEvent.isEintr, Bool.and_eq_true, decide_eq_true_eq] at h2
          have hfil : (ev :: r).filter (fun ev => ! ev.isEintr)
              = r.filter (fun ev => ! ev.isEintr) := by
            simp [List.filter_cons, hkeep]
          rw [hfil, ih sz, writeblock_loop_cons _ _ hfull,
            if_neg (by omega : ¬ ev.n > 0),
            if_neg (by simp [h2.2] : ¬ (ev.n < 0 ∧ ev.e ≠ EINTR))]
        · have hfil : (ev :: r).filter (fun ev => ! ev.isEintr)
              = ev :: r.filter (fun ev => ! ev.isEintr) := by
            simp [List.filter_cons, hkeep]
          rw [hfil, writeblock_loop_cons _ _ hfull, writeblock_loop_cons _ _ hfull]
          by_cases h1 : ev.n > 0
          · rw [if_pos h1, if_pos h1, ih]
          · rw [if_neg h1, if_neg h1]
            by_cases h2 : ev.n < 0 ∧ ev.e ≠ EINTR
            · rw [if_pos h2, if_pos h2]
            · rw [if_neg h2, if_neg h2, ih]

theorem readblock_loop_short_cause (size : Int) (evs : List RwEvent) :
    ∀ sz sz2 e c, readblock_loop size evs sz = some (sz2, e, c) → sz2 < size →
      (c = RwCause.eof ∧ e = 0) ∨ (c = RwCause.readErr ∧ e ≠ EINTR) := by
  induction evs with
  | nil =>
      intro sz sz2 e c hres hlt
      by_cases hfull : size ≤ sz
      · rw [readblock_loop_full _ hfull, Option.some_inj, Prod.mk.injEq,
          Prod.mk.injEq] at hres
        obtain ⟨rfl, -, -⟩ := hres
        omega
      · rw [show readblock_loop size [] sz = none from by
          rw [readblock_loop, if_neg hfull]] at hres
        exact absurd hres (by simp)
  | cons ev r ih =>
      intro sz sz2 e c hres hlt
      by_cases hfull : size ≤ sz
      · rw [readblock_loop_full _ hfull, Option.some_inj, Prod.mk.injEq,
          Prod.mk.injEq] at hres
        obtain ⟨rfl, -, -⟩ := hres
        omega
      · rw [readblock_loop_cons _ _ hfull] at hres
        by_cases h1 : ev.n > 0
        · rw [if_pos h1] at hres
          exact ih _ _ _ _ hres hlt
        · rw [if_neg h1] at hres
          by_cases h2 : ev.n = 0
          · rw [if_pos h2, Option.some_inj, Prod.mk.injEq, Prod.mk.injEq] at hres
            obtain ⟨-, he, hc⟩ := hres
            exact Or.inl ⟨hc.symm, he.symm⟩
          · rw [if_neg h2] at hres
            by_cases h3 : ev.e ≠ EINTR
            · rw [if_pos h3, Option.some_inj, Prod.mk.injEq, Prod.mk.injEq] at hres
              obtain ⟨-, he, hc⟩ := hres
              exact Or.inr ⟨hc.symm, he ▸ h3⟩
            · rw [if_neg h3] at hres
              exact ih _ _ _ _ hres hlt

theorem writeblock_loop_short_cause (size : Int) (evs : List RwEvent) :
    ∀ sz sz2 e c, writeblock_loop size evs sz = some (sz2, e, c) → sz2 < size →
      c = RwCause.writeErr ∧ e ≠ EINTR := by
  induction evs with
  | nil =>
      intro sz sz2 e c hres hlt
      by_cases hfull : size ≤ sz
      · rw [writeblock_loop_full _ hfull, Option.some_inj, Prod.mk.injEq,
          Prod.mk.injEq] at hres
        obtain ⟨rfl, -, -⟩ := hres
        omega
      · rw [show writeblock_loop size [] sz = none from by
          rw [writeblock_loop, if_neg hfull]] at hres
        exact absurd hres (by simp)
  | cons ev r ih =>
      intro sz sz2 e c hres hlt
      by_cases hfull : size ≤ sz
      · rw [writeblock_loop_full _ hfull, Option.some_inj, Prod.mk.injEq,
          Prod.mk.injEq] at hres
        obtain ⟨rfl, -, -⟩ := hres
        omega
      · rw [writeblock_loop_cons _ _ hfull] at hres
        by_cases h1 : ev.n > 0
        · rw [if_pos h1] at hres
          exact ih _ _ _ _ hres hlt
        · rw [if_neg h1] at hres
          by_cases h2 : ev.n < 0 ∧ ev.e ≠ EINTR
          · rw [if_pos h2, Option.some_inj, Prod.mk.injEq, Prod.mk.injEq] at hres
            obtain ⟨-, he, hc⟩ := hres
            exact ⟨hc.symm, he ▸ h2.2⟩
          · rw [if_neg h2] at hres
            exact ih _ _ _ _ hres hlt

/-- Counterexample to C9 as stated: with a failed initial `lseek`,
`readblock` returns 0 of the 1 requested bytes although neither end of file
was reached nor any (non-EINTR) read error occurred — the cause is the seek
failure, which the claim lists for `writeblock` but not for `readblock`. -/
theorem readblock_seek_failure_cex :
    readblock false 9 1 [] = some (0, 9, RwCause.seekFail)
    ∧ (0 : Int) < 1
    ∧ RwCause.seekFail ≠ RwCause.eof
    ∧ RwCause.seekFail ≠ RwCause.readErr := by decide

/-- C9 (amended): the transfer loops of `readblock` and `writeblock` never
terminate because of an `EINTR`-interrupted call — deleting the `EINTR`
events from a trace leaves the result unchanged — and a short transfer is
caused only by end of file with `errno` 0 (readblock), a non-EINTR
read/write error, or a failure of the initial seek (in `readblock` as well
as in `writeblock`). -/
theorem transfer_loops_eintr_invisible :
    (∀ (seekOk : Bool) (se size : Int) (evs : List RwEvent),
      readblock seekOk se size (evs.filter (fun ev => ! ev.isEintr))
        = readblock seekOk se size evs)
  ∧ (∀ (seekOk : Bool) (se size : Int) (evs : List RwEvent),
      writeblock seekOk se size (evs.filter (fun ev => ! ev.isEintr))
        = writeblock seekOk se size evs)
  ∧ (∀ (seekOk : Bool) (se size : Int) (evs : List RwEvent) (sz e : Int)
      (c : RwCause),
      readblock seekOk se size evs = some (sz, e, c) → sz < size →
      (c = RwCause.eof ∧ e = 0) ∨ (c = RwCause.readErr ∧ e ≠ EINTR)
        ∨ (c = RwCause.seekFail ∧ e = se))
  ∧ (∀ (seekOk : Bool) (se size : Int) (evs : List RwEvent) (sz e : Int)
      (c : RwCause),
      writeblock seekOk se size evs = some (sz, e, c) → sz < size →
      (c = RwCause.writeErr ∧ e ≠ EINTR) ∨ (c = RwCause.seekFail ∧ e = se)) := by
  refine ⟨?_, ?_, ?_, ?_⟩
  · intro seekOk se size evs
    cases seekOk with
    | false => rfl
    | true => exact readblock_loop_filter_eintr size evs 0
  · intro seekOk se size evs
    cases seekOk with
    | false => rfl
    | true => exact writeblock_loop_filter_eintr size evs 0
  · intro seekOk se size evs sz e c hres hlt
    cases seekOk with
    | false =>
        rw [show readblock false se size evs = some (0, se, RwCause.seekFail)
            from rfl, Option.some_inj, Prod.mk.injEq, Prod.mk.injEq] at hres
        obtain ⟨-, he, hc⟩ := hres
        exact Or.inr (Or.inr ⟨hc.symm, he.symm⟩)
    | true =>
        rw [show readblock true se size evs = readblock_loop size evs 0
          from rfl] at hres
        rcases readblock_loop_short_cause size evs 0 sz e c hres hlt with h | h
        · exact Or.inl h
        · exact Or.inr (Or.inl h)
  · intro seekOk se size evs sz e c hres hlt
    cases seekOk with
    | false =>
        rw [show writeblock false se size evs = some (0, se, RwCause.seekFail)
            from rfl, Option.some_inj, Prod.mk.injEq, Prod.mk.injEq] at hres
        obtain ⟨-, he, hc⟩ := hres
        exact Or.inr ⟨hc.symm, he.symm⟩
    | true =>
        rw [show writeblock true se size evs = writeblock_loop size evs 0
          from rfl] at hres
        exact Or.inl (writeblock_loop_short_cause size evs 0 sz e c hres hlt)

/-- Witness for C9 at concrete traces: an `EINTR` event before an EOF is
invisible, and the short-read cause at that trace is EOF with `errno` 0. -/
theorem transfer_loops_eintr_invisible_witness :
    readblock true 0 4
        ([⟨-1, 4⟩, ⟨2, 0⟩, ⟨0, 0⟩].filter (fun ev => ! ev.isEintr))
      = readblock true 0 4 [⟨-1, 4⟩, ⟨2, 0⟩, ⟨0, 0⟩]
    ∧ ((RwCause.eof = RwCause.eof ∧ (0 : Int) = 0)
        ∨ (RwCause.eof = RwCause.readErr ∧ (0 : Int) ≠ EINTR)
        ∨ (RwCause.eof = RwCause.seekFail ∧ (0 : Int) = 0)) := by
  constructor
  · exact transfer_loops_eintr_invisible.1 true 0 4 [⟨-1, 4⟩, ⟨2, 0⟩, ⟨0, 0⟩]
  · exact transfer_loops_eintr_invisible.2.2.1 true 0 4 [⟨-1, 4⟩, ⟨2, 0⟩, ⟨0, 0⟩]
      2 0 RwCause.eof (by decide) (by decide)

/-! ### Claim C6 — the errors count of the status summary -/

theorem specErrorRuns_zero {dom : List Block} {l : List Sblock}
    (h : ∀ s ∈ l, domainIncludes dom s.toBlock = false) :
    ∀ b, specErrorRuns dom l b = 0 := by
  induction l with
  | nil => intro b; rfl
  | cons sb r ih =>
      intro b
      have hsb : domainIncludes dom sb.toBlock = false :=
        h sb (List.mem_cons_self _ _)
      rw [specErrorRuns, if_neg (by simp [hsb])]
      exact ih (fun s hs => h s (List.mem_cons_of_mem _ hs)) false

theorem do_show_status_loop_errors (dom : List Block) (hdom : DomBounded dom) :
    ∀ (A : List Sblock) (c : StatusCounts), SbChain A → PosSizes A →
    (do_show_status_loop dom A c).errors
      = c.errors + (specErrorRuns dom A (! c.good) : Int) := by
  intro A
  induction A with
  | nil => intro c _ _; simp [do_show_status_loop, specErrorRuns]
  | cons sb r ih =>
      intro c hc hp
      have hcr := sbChain_cons hc
      have hpr := posSizes_cons hp
      have ihx : ∀ c2 : StatusCounts, (do_show_status_loop dom r c2).errors
          = c2.errors + (specErrorRuns dom r (! c2.good) : Int) :=
        fun c2 => ih c2 hcr hpr
      by_cases hinc : domainIncludes dom sb.toBlock = true
      · cases hst : sb.status with
        | non_tried =>
            simp [do_show_status_loop, hst, hinc, ihx, specErrorRuns]
        | finished =>
            simp [do_show_status_loop, hst, hinc, ihx, specErrorRuns]
        | non_trimmed =>
            simp only [do_show_status_loop, hst, hinc, not_true_eq_false,
              Bool.false_eq_true, if_false, ihx, specErrorRuns, if_true]
            cases hg : c.good with
            | true => simp; omega
            | false => simp
        | non_split =>
            simp only [do_show_status_loop, hst, hinc, not_true_eq_false,
              Bool.false_eq_true, if_false, ihx, specErrorRuns, if_true]
            cases hg : c.good with
            | true => simp; omega
            | false => simp
        | bad_sector =>
            simp only [do_show_status_loop, hst, hinc, not_true_eq_false,
              Bool.false_eq_true, if_false, ihx, specErrorRuns, if_true]
            cases hg : c.good with
            | true => simp; omega
            | false => simp
      · have hincF : domainIncludes dom sb.toBlock = false := by simpa using hinc
        by_cases hlt : domainLt dom sb.toBlock = true
        · have hafter := not_included_after_domain hdom hc hp hlt
          rw [do_show_status_loop, if_pos (by simp [hincF]), if_pos hlt]
          rw [specErrorRuns_zero (fun s hs => hafter s hs)]
          simp
        · have hltF : domainLt dom sb.toBlock = false := by simpa using hlt
          rw [do_show_status_loop, if_pos (by simp [hincF]), if_neg (by simp [hltF])]
          rw [ihx]
          rw [specErrorRuns, if_neg (by simp [hincF])]
          simp

/-- C6: the `errors` figure reported by the status summary equals the number
of maximal runs of consecutive domain-included sblocks whose status is
neither `non_tried` nor `finished`, where an sblock outside the domain
resets the current run (so a bad area resumed after a domain gap counts as a
new error). -/
theorem show_status_errors_count (dom : List Block) (A : List Sblock)
    (hdom : DomBounded dom) (hc : SbChain A) (hp : PosSizes A) :
    do_show_status_errors dom A = (specErrorRuns dom A false : Int) := by
  have h := do_show_status_loop_errors dom hdom A initialCounts hc hp
  simpa [do_show_status_errors, initialCounts] using h

/-- Witness for C6: a bad area interrupted by a domain gap counts as two
errors. -/
theorem show_status_errors_count_witness :
    do_show_status_errors [⟨0, 2⟩, ⟨4, 2⟩]
        [⟨0, 2, .bad_sector⟩, ⟨2, 2, .bad_sector⟩, ⟨4, 2, .bad_sector⟩]
      = (specErrorRuns [⟨0, 2⟩, ⟨4, 2⟩]
          [⟨0, 2, .bad_sector⟩, ⟨2, 2, .bad_sector⟩, ⟨4, 2, .bad_sector⟩]
          false : Int)
    ∧ specErrorRuns [⟨0, 2⟩, ⟨4, 2⟩]
        [⟨0, 2, .bad_sector⟩, ⟨2, 2, .bad_sector⟩, ⟨4, 2, .bad_sector⟩]
        false = 2 := by
  constructor
  · exact show_status_errors_count [⟨0, 2⟩, ⟨4, 2⟩]
      [⟨0, 2, .bad_sector⟩, ⟨2, 2, .bad_sector⟩, ⟨4, 2, .bad_sector⟩]
      (by intro d hd; fin_cases hd <;> simp [domainEnd, Block.stop])
      (by simp [SbChain, List.chain'_cons, Sblock.stop])
      (by intro s hs; fin_cases hs <;> norm_num)
  · decide

/-! ### Structural helpers shared by the remaining claims -/

theorem statusAt_cons (s : Sblock) (r : List Sblock) (p : Int) :
    statusAt (s :: r) p
      = if s.pos ≤ p ∧ p < s.stop then some s.status else statusAt r p := by
  by_cases h : s.pos ≤ p ∧ p < s.stop
  · rw [if_pos h, statusAt, List.find?_cons_of_pos _ (by simp [h.1, h.2])]
    rfl
  · rw [if_neg h, statusAt, List.find?_cons_of_neg, statusAt]
    rw [Bool.and_eq_true, decide_eq_true_eq, decide_eq_true_eq]
    exact fun hcon => h hcon

theorem sbChain_drop (i : Nat) : ∀ (A : List Sblock), SbChain A → SbChain (A.drop i) := by
  induction i with
  | zero => intro A h; exact h
  | succ n ih =>
      intro A h
      cases A with
      | nil => exact h
      | cons a r => exact ih r (sbChain_cons h)

theorem posSizes_drop (i : Nat) : ∀ (A : List Sblock), PosSizes A → PosSizes (A.drop i) := by
  induction i with
  | zero => intro A h; exact h
  | succ n ih =>
      intro A h
      cases A with
      | nil => exact h
      | cons a r => exact ih r (posSizes_cons h)

theorem chain_tail_pos {t : Sblock} {r : List Sblock}
    (hc : SbChain (t :: r)) (hs : ∀ s ∈ t :: r, 0 ≤ s.size) :
    ∀ s ∈ r, t.stop ≤ s.pos := by
  cases r with
  | nil => intro s hs2; exact absurd hs2 (by simp)
  | cons u r2 =>
      intro s hs2
      have hrel : t.stop = u.pos := (List.chain'_cons.mp hc).1
      have hmono := chain_pos_mono (sbChain_cons hc)
        (fun x hx => hs x (List.mem_cons_of_mem _ hx)) s hs2
      omega

/-- In a chained, positively-sized vector the covering sblock of a byte is
unique, so `statusAt` returns the status of any covering member. -/
theorem mem_cover_statusAt {A : List Sblock} {sb : Sblock} {p : Int}
    (hc : SbChain A) (hp : PosSizes A) (hmem : sb ∈ A)
    (h1 : sb.pos ≤ p) (h2 : p < sb.stop) :
    statusAt A p = some sb.status := by
  induction A with
  | nil => exact absurd hmem (by simp)
  | cons t r ih =>
      rw [statusAt_cons]
      rcases List.mem_cons.mp hmem with rfl | hmem2
      · rw [if_pos ⟨h1, h2⟩]
      · have hpos := chain_tail_pos hc
          (fun x hx => le_of_lt (hp x hx)) sb hmem2
        rw [if_neg (fun hcov => by
          have : t.stop ≤ sb.pos := hpos
          omega)]
        exact ih (sbChain_cons hc) (posSizes_cons hp) hmem2

theorem sbChain_set_status :
    ∀ (A : List Sblock) (i : Nat) (sb : Sblock) (st : Status),
      A[i]? = some sb → SbChain A → SbChain (A.set i { sb with status := st })
  | [], i, sb, st, h, _ => by simp at h
  | a :: r, 0, sb, st, h, hc => by
      simp only [List.getElem?_cons_zero, Option.some_inj] at h
      subst h
      rw [List.set_cons_zero]
      rw [SbChain, List.chain'_cons'] at hc ⊢
      refine ⟨fun y hy => ?_, hc.2⟩
      have := hc.1 y hy
      simpa [Sblock.stop] using this
  | a :: r, i + 1, sb, st, h, hc => by
      simp only [List.getElem?_cons_succ] at h
      rw [List.set_cons_succ]
      rw [SbChain, List.chain'_cons'] at hc ⊢
      refine ⟨fun y hy => ?_, sbChain_set_status r i sb st h hc.2⟩
      cases r with
      | nil => simp at h
      | cons b r2 =>
          cases i with
          | zero =>
              simp only [List.getElem?_cons_zero, Option.some_inj] at h
              subst h
              rw [List.set_cons_zero] at hy
              simp only [List.head?_cons, Option.mem_def, Option.some_inj] at hy
              subst hy
              have := hc.1 b (by simp)
              simpa [Sblock.stop] using this
          | succ n =>
              rw [List.set_cons_succ] at hy
              simp only [List.head?_cons, Option.mem_def, Option.some_inj] at hy
              subst hy
              exact hc.1 b (by simp)

theorem posSizes_set_status {A : List Sblock} {i : Nat} {sb : Sblock}
    {st : Status} (h : A[i]? = some sb) (hp : PosSizes A) :
    PosSizes (A.set i { sb with status := st }) := by
  intro s hs
  rcases List.mem_or_eq_of_mem_set hs with hs2 | rfl
  · exact hp s hs2
  · have hsb : sb ∈ A := by
      have hi : i < A.length := by
        by_contra hcon
        rw [List.getElem?_eq_none (by omega)] at h
        exact absurd h (by simp)
      have := List.getElem?_eq_some_iff.mp h
      obtain ⟨h2, h3⟩ := this
      exact h3 ▸ List.getElem_mem h2
    exact hp sb hsb

theorem compact_cons_red (s t : Sblock) (ts : List Sblock) {r : List Sblock}
    (hr : compact_sblock_vector r = t :: ts) :
    compact_sblock_vector (s :: r)
      = if s.status = t.status ∧ s.stop = t.pos then
          (⟨s.pos, s.size + t.size, s.status⟩ : Sblock) :: ts
        else s :: t :: ts := by
  rw [compact_sblock_vector, hr]

theorem compact_cons_nil {r : List Sblock} (s : Sblock)
    (hr : compact_sblock_vector r = []) :
    compact_sblock_vector (s :: r) = [s] := by
  rw [compact_sblock_vector, hr]

theorem compact_eq_nil {A : List Sblock} :
    compact_sblock_vector A = [] → A = [] := by
  cases A with
  | nil => intro _; rfl
  | cons s r =>
      intro h
      rcases hr : compact_sblock_vector r with _ | ⟨t, ts⟩
      · rw [compact_cons_nil s hr] at h
        exact absurd h (by simp)
      · rw [compact_cons_red s t ts hr] at h
        by_cases hm : s.status = t.status ∧ s.stop = t.pos
        · rw [if_pos hm] at h
          exact absurd h (by simp)
        · rw [if_neg hm] at h
          exact absurd h (by simp)

theorem compact_sizes {A : List Sblock} (hp : ∀ s ∈ A, 0 ≤ s.size) :
    ∀ u ∈ compact_sblock_vector A, 0 ≤ u.size := by
  induction A with
  | nil =>
      intro u hu
      rw [show compact_sblock_vector [] = [] from rfl] at hu
      exact absurd hu (by simp)
  | cons s r ih =>
      intro u hu
      have hps : (0 : Int) ≤ s.size := hp s (List.mem_cons_self _ _)
      have ihr := ih (fun x hx => hp x (List.mem_cons_of_mem _ hx))
      rcases hr : compact_sblock_vector r with _ | ⟨t, ts⟩
      · rw [compact_cons_nil s hr] at hu
        rcases List.mem_singleton.mp hu with rfl
        exact hps
      · rw [compact_cons_red s t ts hr] at hu
        have hts : 0 ≤ t.size := ihr t (hr ▸ List.mem_cons_self _ _)
        by_cases hm : s.status = t.status ∧ s.stop = t.pos
        · rw [if_pos hm] at hu
          rcases List.mem_cons.mp hu with rfl | hu2
          · show (0 : Int) ≤ s.size + t.size
            omega
          · exact ihr u (hr ▸ List.mem_cons_of_mem _ hu2)
        · rw [if_neg hm] at hu
          rcases List.mem_cons.mp hu with rfl | hu2
          · exact hps
          · exact ihr u (hr ▸ hu2)

/-- Compaction does not change the status of any byte. -/
theorem statusAt_compact {A : List Sblock} (hp : ∀ s ∈ A, 0 ≤ s.size) :
    ∀ p, statusAt (compact_sblock_vector A) p = statusAt A p := by
  induction A with
  | nil => intro p; rfl
  | cons s r ih =>
      intro p
      have hps : (0 : Int) ≤ s.size := hp s (List.mem_cons_self _ _)
      have ihr := ih (fun x hx => hp x (List.mem_cons_of_mem _ hx))
      rcases hr : compact_sblock_vector r with _ | ⟨t, ts⟩
      · have hrnil : r = [] := compact_eq_nil hr
        subst hrnil
        rw [compact_cons_nil (r := []) s rfl]
      · have hts : 0 ≤ t.size :=
          compact_sizes (fun x hx => hp x (List.mem_cons_of_mem _ hx)) t
            (hr ▸ List.mem_cons_self _ _)
        have ihp : statusAt (t :: ts) p = statusAt r p := hr ▸ ihr p
        rw [compact_cons_red s t ts hr]
        by_cases hm : s.status = t.status ∧ s.stop = t.pos
        · rw [if_pos hm]
          rw [statusAt_cons, statusAt_cons]
          rw [statusAt_cons] at ihp
          simp only [Sblock.stop] at hm ⊢
          by_cases h1 : s.pos ≤ p ∧ p < s.pos + s.size
          · rw [if_pos ⟨h1.1, by omega⟩, if_pos h1, hm.1]
          · by_cases h2 : t.pos ≤ p ∧ p < t.stop
            · simp only [Sblock.stop] at h2
              rw [if_pos ⟨by omega, by omega⟩, if_neg h1]
              rw [← ihp, if_pos (by simp only [Sblock.stop]; omega)]
              exact congrArg some hm.1
            · simp only [Sblock.stop, not_and, not_lt] at h2
              by_cases h2a : t.pos ≤ p
              · have h2b : t.pos + t.size ≤ p := h2 h2a
                rw [if_neg (by omega), if_neg h1, ← ihp,
                  if_neg (by simp only [Sblock.stop]; omega)]
              · rw [if_neg (by omega), if_neg h1, ← ihp,
                  if_neg (by simp only [Sblock.stop]; omega)]
        · rw [if_neg hm]
          rw [statusAt_cons s (t :: ts) p, statusAt_cons s r p]
          by_cases h1 : s.pos ≤ p ∧ p < s.stop
          · rw [if_pos h1, if_pos h1]
          · rw [if_neg h1, if_neg h1]
            exact ihp

/-! ### Claim C3 — invert-logfile -/

/-- The per-sblock effect of one `change_types` iteration
(`ddrescuelog.cc:223-225`): a domain-included sblock whose status occurs in
`types1` is restatused to the corresponding `types2` entry. -/
def ctMap (dom : List Block) (types1 types2 : List Status) (sb : Sblock) : Sblock :=
  if domainIncludes dom sb.toBlock then
    (let j := types1.findIdx (· = sb.status)
     if j < types1.length then { sb with status := types2.getD j sb.status } else sb)
  else sb

theorem map_eq_self {l : List Sblock} {f : Sblock → Sblock}
    (h : ∀ s ∈ l, f s = s) : l.map f = l := by
  induction l with
  | nil => rfl
  | cons a r ih =>
      rw [List.map_cons, h a (List.mem_cons_self _ _),
        ih (fun s hs => h s (List.mem_cons_of_mem _ hs))]

theorem change_types_loop_none {dom : List Block} {t1 t2 : List Status}
    {fuel : Nat} {A : List Sblock} {i : Nat} (h : A[i]? = none) :
    change_types_loop dom t1 t2 (fuel + 1) A i = some A := by
  rw [change_types_loop, h]

theorem change_types_loop_cons {dom : List Block} {t1 t2 : List Status}
    {fuel : Nat} {A : List Sblock} {i : Nat} {sb : Sblock}
    (h : A[i]? = some sb) :
    change_types_loop dom t1 t2 (fuel + 1) A i =
      if ¬ domainIncludes dom sb.toBlock then
        (if domainLt dom sb.toBlock then some A
         else change_types_loop dom t1 t2 fuel A (i + 1))
      else
        (let j := t1.findIdx (· = sb.status)
         if j < t1.length then
           change_types_loop dom t1 t2 fuel
             (change_sblock_status A i (t2.getD j sb.status)) (i + 1)
         else change_types_loop dom t1 t2 fuel A (i + 1)) := by
  rw [change_types_loop, h]

theorem change_types_loop_eq (dom : List Block) (t1 t2 : List Status)
    (hdom : DomBounded dom) :
    ∀ (fuel : Nat) (A : List Sblock) (i : Nat),
      SbChain A → PosSizes A → A.length - i < fuel →
      change_types_loop dom t1 t2 fuel A i
        = some (A.take i ++ (A.drop i).map (ctMap dom t1 t2)) := by
  intro fuel
  induction fuel with
  | zero => intro A i _ _ hbound; omega
  | succ fuel ih =>
      intro A i hc hp hbound
      cases h : A[i]? with
      | none =>
          have hlen : A.length ≤ i := by
            by_contra hcon
            rw [List.getElem?_eq_getElem (by omega)] at h
            exact absurd h (by simp)
          rw [change_types_loop_none h]
          rw [List.take_of_length_le hlen, List.drop_of_length_le hlen]
          simp
      | some sb =>
          have hi : i < A.length := (List.getElem?_eq_some_iff.mp h).1
          have hgi : A[i] = sb := (List.getElem?_eq_some_iff.mp h).2
          have hdropc : A.drop i = sb :: A.drop (i + 1) := by
            rw [List.drop_eq_getElem_cons hi, hgi]
          have hmem : sb ∈ A := hgi ▸ List.getElem_mem hi
          by_cases hinc : domainIncludes dom sb.toBlock = true
          · rw [change_types_loop_cons h, if_neg (by simp [hinc])]
            simp only
            by_cases hj : t1.findIdx (· = sb.status) < t1.length
            · rw [if_pos hj]
              have hset : change_sblock_status A i
                  (t2.getD (t1.findIdx (· = sb.status)) sb.status)
                  = A.set i { sb with
                      status := t2.getD (t1.findIdx (· = sb.status)) sb.status } := by
                rw [change_sblock_status, h]
              set sb2 : Sblock := { sb with
                status := t2.getD (t1.findIdx (· = sb.status)) sb.status } with hsb2
              have hchain2 := sbChain_set_status A i sb
                (t2.getD (t1.findIdx (· = sb.status)) sb.status) h hc
              have hsizes2 := @posSizes_set_status A i sb
                (t2.getD (t1.findIdx (· = sb.status)) sb.status) h hp
              have hlen2 : (A.set i sb2).length = A.length := List.length_set ..
              rw [hset, ih (A.set i sb2) (i + 1) hchain2 hsizes2 (by omega)]
              have hdecomp : A.set i sb2 = A.take i ++ sb2 :: A.drop (i + 1) :=
                List.set_eq_take_cons_drop sb2 hi
              have htk : (A.set i sb2).take (i + 1) = A.take i ++ [sb2] := by
                rw [hdecomp, List.take_append_eq_append_take,
                  List.take_of_length_le (by rw [List.length_take]; omega),
                  List.length_take]
                have : min i A.length = i := by omega
                rw [this, show i + 1 - i = 1 from by omega]
                rfl
              have hdr : (A.set i sb2).drop (i + 1) = A.drop (i + 1) := by
                rw [hdecomp, List.drop_append_eq_append_drop,
                  List.drop_of_length_le (by rw [List.length_take]; omega),
                  List.length_take]
                have : min i A.length = i := by omega
                rw [this, show i + 1 - i = 1 from by omega]
                rfl
              rw [htk, hdr, hdropc]
              rw [List.map_cons]
              have hmap : ctMap dom t1 t2 sb = sb2 := by
                rw [ctMap, if_pos hinc]
                simp only [hj, if_true]
              rw [hmap, List.append_assoc]
              rfl
            · rw [if_neg hj, ih A (i + 1) hc hp (by omega)]
              rw [List.take_succ, hdropc]
              rw [List.map_cons]
              have hmap : ctMap dom t1 t2 sb = sb := by
                rw [ctMap, if_pos hinc]
                simp only [hj, if_false]
              rw [hmap, h]
              simp [List.append_assoc]
          · have hincF : domainIncludes dom sb.toBlock = false := by simpa using hinc
            have hmap : ctMap dom t1 t2 sb = sb := by
              rw [ctMap, if_neg (by simp [hincF])]
            by_cases hlt : domainLt dom sb.toBlock = true
            · rw [change_types_loop_cons h, if_pos (by simp [hincF]), if_pos hlt]
              have hafter := not_included_after_domain hdom
                (hdropc ▸ sbChain_drop i A hc)
                (hdropc ▸ posSizes_drop i A hp) hlt
              have hmapid : (A.drop i).map (ctMap dom t1 t2) = A.drop i := by
                refine map_eq_self (fun s hs => ?_)
                have hnot : domainIncludes dom s.toBlock = false :=
                  hafter s (hdropc ▸ hs)
                rw [ctMap, if_neg (by simp [hnot])]
              rw [hmapid, List.take_append_drop]
            · rw [change_types_loop_cons h, if_pos (by simp [hincF]),
                if_neg (by simpa using hlt)]
              rw [ih A (i + 1) hc hp (by omega)]
              rw [List.take_succ, hdropc, List.map_cons, hmap, h]
              simp [List.append_assoc]

/-- Spec-side status mapping of the invert operation: `finished` flips to
`bad_sector`; every other status becomes `finished`. -/
def invertStatus : Status → Status
  | .finished => .bad_sector
  | _ => .finished

/-- A byte lies in a domain-included sblock of the vector. -/
def includedByteB (dom : List Block) (A : List Sblock) (p : Int) : Bool :=
  A.any (fun sb => decide (sb.pos ≤ p) && decide (p < sb.stop)
    && domainIncludes dom sb.toBlock)

theorem cover_unique {A : List Sblock} {s1 s2 : Sblock} {p : Int}
    (hc : SbChain A) (hp : PosSizes A)
    (h1 : s1 ∈ A) (h1a : s1.pos ≤ p) (h1b : p < s1.stop)
    (h2 : s2 ∈ A) (h2a : s2.pos ≤ p) (h2b : p < s2.stop) : s1 = s2 := by
  induction A with
  | nil => exact absurd h1 (by simp)
  | cons t r ih =>
      have hpos := chain_tail_pos hc (fun x hx => le_of_lt (hp x hx))
      rcases List.mem_cons.mp h1 with rfl | hm1
      · rcases List.mem_cons.mp h2 with rfl | hm2
        · rfl
        · have := hpos s2 hm2
          omega
      · rcases List.mem_cons.mp h2 with rfl | hm2
        · have := hpos s1 hm1
          omega
        · exact ih (sbChain_cons hc) (posSizes_cons hp) hm1 hm2

theorem ctMap_invert (dom : List Block) (sb : Sblock)
    (hinc : domainIncludes dom sb.toBlock = true) :
    ctMap dom invert_types1 invert_types2 sb
      = { sb with status := invertStatus sb.status } := by
  obtain ⟨pos, size, st⟩ := sb
  rw [ctMap, if_pos hinc]
  cases st <;> rfl

theorem ctMap_toBlock (dom : List Block) (t1 t2 : List Status) (sb : Sblock) :
    (ctMap dom t1 t2 sb).toBlock = sb.toBlock := by
  rw [ctMap]
  split_ifs with h1
  · show (if t1.findIdx (· = sb.status) < t1.length then
        ({ sb with status := t2.getD (t1.findIdx (· = sb.status)) sb.status } : Sblock)
      else sb).toBlock = sb.toBlock
    split_ifs <;> rfl
  · rfl

/-- C3: the invert operation is `change_types` with old types
`? * / - +` and new types `+ + + + -`; on every byte of a domain-included
sblock it applies the fixed mapping sending `non_tried`, `non_trimmed`,
`non_split` and `bad_sector` to `finished` and `finished` to `bad_sector`,
and it leaves every other byte unchanged; it is not self-inverse (a
`non_tried` sblock comes back `bad_sector`). -/
theorem invert_logfile_spec (dom : List Block) (A : List Sblock)
    (hdom : DomBounded dom) (hc : SbChain A) (hp : PosSizes A) :
    (∃ R, invert_logfile dom A = some R
      ∧ ∀ p, statusAt R p =
          if includedByteB dom A p then (statusAt A p).map invertStatus
          else statusAt A p)
    ∧ invert_types1.map Status.toChar = "?*/-+".toList
    ∧ invert_types2.map Status.toChar = "++++-".toList
    ∧ invert_logfile [⟨0, 1⟩] [⟨0, 1, .non_tried⟩] = some [⟨0, 1, .finished⟩]
    ∧ invert_logfile [⟨0, 1⟩] [⟨0, 1, .finished⟩] = some [⟨0, 1, .bad_sector⟩]
    ∧ (⟨0, 1, Status.bad_sector⟩ : Sblock) ≠ ⟨0, 1, Status.non_tried⟩ := by
  refine ⟨?_, by decide, by decide, by decide, by decide, by decide⟩
  have hloop := change_types_loop_eq dom invert_types1 invert_types2 hdom
    (A.length + 1) A 0 hc hp (by omega)
  have heq : invert_logfile dom A
      = some (compact_sblock_vector (A.map (ctMap dom invert_types1 invert_types2))) := by
    rw [invert_logfile, change_types, hloop]
    simp
  refine ⟨_, heq, fun p => ?_⟩
  have hmapsz : ∀ s ∈ A.map (ctMap dom invert_types1 invert_types2), (0:Int) ≤ s.size := by
    intro s hs
    obtain ⟨x, hx, rfl⟩ := List.mem_map.mp hs
    have h1 : (ctMap dom invert_types1 invert_types2 x).toBlock = x.toBlock :=
      ctMap_toBlock ..
    have h2 : (ctMap dom invert_types1 invert_types2 x).size = x.size := by
      have := congrArg Block.size h1
      simpa [Sblock.toBlock] using this
    rw [h2]
    exact le_of_lt (hp x hx)
  rw [statusAt_compact hmapsz p]
  -- statusAt of the mapped vector against the original
  have hcov : ∀ sb : Sblock,
      ((fun s => decide (s.pos ≤ p) && decide (p < s.stop)) ∘
        ctMap dom invert_types1 invert_types2) sb
      = (fun s => decide (s.pos ≤ p) && decide (p < s.stop)) sb := by
    intro sb
    have h1 := ctMap_toBlock dom invert_types1 invert_types2 sb
    have hpos : (ctMap dom invert_types1 invert_types2 sb).pos = sb.pos := by
      have := congrArg Block.pos h1
      simpa [Sblock.toBlock] using this
    have hsz : (ctMap dom invert_types1 invert_types2 sb).size = sb.size := by
      have := congrArg Block.size h1
      simpa [Sblock.toBlock] using this
    simp [Function.comp, hpos, Sblock.stop, hsz]
  rw [statusAt, List.find?_map,
    show ((fun s => decide (s.pos ≤ p) && decide (p < s.stop)) ∘
        ctMap dom invert_types1 invert_types2)
      = (fun s : Sblock => decide (s.pos ≤ p) && decide (p < s.stop))
      from funext hcov]
  cases hfind : A.find? (fun s => decide (s.pos ≤ p) && decide (p < s.stop)) with
  | none =>
      have hnone : statusAt A p = none := by
        rw [statusAt, hfind]
        rfl
      have hincF : includedByteB dom A p = false := by
        rw [includedByteB]
        rw [List.any_eq_false]
        intro sb hsb
        have hnc := List.find?_eq_none.mp hfind sb hsb
        rw [Bool.not_eq_true] at hnc
        rw [hnc, Bool.false_and]
        simp
      rw [hnone, hincF]
      simp
  | some sb =>
      have hmem := List.mem_of_find?_eq_some hfind
      have hcover := List.find?_some hfind
      rw [Bool.and_eq_true, decide_eq_true_eq, decide_eq_true_eq] at hcover
      have hstat : statusAt A p = some sb.status := by
        rw [statusAt, hfind]
        rfl
      by_cases hinc : domainIncludes dom sb.toBlock = true
      · have hincT : includedByteB dom A p = true := by
          rw [includedByteB, List.any_eq_true]
          exact ⟨sb, hmem, by simp [hcover.1, hcover.2, hinc]⟩
        rw [hincT, hstat]
        simp only [Option.map_some']
        rw [ctMap_invert dom sb hinc]
        simp
      · have hincF : includedByteB dom A p = false := by
          rw [includedByteB, List.any_eq_false]
          intro x hx
          intro hcon
          rw [Bool.and_eq_true, Bool.and_eq_true, decide_eq_true_eq,
            decide_eq_true_eq] at hcon
          obtain ⟨⟨h1, h2⟩, h3⟩ := hcon
          have hxeq : x = sb :=
            cover_unique hc hp hx h1 h2 hmem hcover.1 hcover.2
          subst hxeq
          exact hinc h3
        rw [hincF, hstat]
        simp only [Option.map_some']
        have hid : ctMap dom invert_types1 invert_types2 sb = sb := by
          rw [ctMap, if_neg hinc]
        rw [hid]
        simp

/-- Witness for C3 at a concrete mapfile over the domain `[0,4)`: byte 1
(`non_tried` in the input) comes out `finished` and byte 3 (`finished` in
the input) comes out `bad_sector`. -/
theorem invert_logfile_spec_witness :
    statusAt ((invert_logfile [⟨0, 4⟩]
        [⟨0, 2, .non_tried⟩, ⟨2, 2, .finished⟩]).getD []) 1
      = some Status.finished
    ∧ statusAt ((invert_logfile [⟨0, 4⟩]
        [⟨0, 2, .non_tried⟩, ⟨2, 2, .finished⟩]).getD []) 3
      = some Status.bad_sector := by
  obtain ⟨⟨R, hR, hmap⟩, -, -, -, -, -⟩ :=
    invert_logfile_spec [⟨0, 4⟩] [⟨0, 2, .non_tried⟩, ⟨2, 2, .finished⟩]
      (by intro d hd; fin_cases hd <;> simp [domainEnd, Block.stop])
      (by simp [SbChain, List.chain'_cons, Sblock.stop])
      (by intro s hs; fin_cases hs <;> norm_num)
  rw [hR]
  simp only [Option.getD_some]
  constructor
  · rw [hmap 1]
    decide
  · rw [hmap 3]
    decide

/-! ### Claim C5 — create-mapfile -/

theorem statusAt_nil (p : Int) : statusAt [] p = none := rfl

theorem statusAt_append (l1 l2 : List Sblock) (p : Int) :
    statusAt (l1 ++ l2) p = (statusAt l1 p).or (statusAt l2 p) := by
  induction l1 with
  | nil => simp [statusAt_nil]
  | cons s r ih =>
      rw [List.cons_append, statusAt_cons, statusAt_cons]
      by_cases hcov : s.pos ≤ p ∧ p < s.stop
      · rw [if_pos hcov, if_pos hcov, Option.or_some]
      · rw [if_neg hcov, if_neg hcov, ih]

theorem statusAt_single_opt (c : Prop) [Decidable c] (x : Sblock) (p : Int) :
    statusAt (if c then [x] else []) p
      = if c ∧ x.pos ≤ p ∧ p < x.stop then some x.status else none := by
  by_cases h1 : c
  · rw [if_pos h1, statusAt_cons]
    by_cases h2 : x.pos ≤ p ∧ p < x.stop
    · rw [if_pos h2, if_pos ⟨h1, h2⟩]
    · rw [if_neg h2, if_neg (fun hcon => h2 hcon.2), statusAt_nil]
  · rw [if_neg h1, if_neg (fun hcon => h1 hcon.1), statusAt_nil]

theorem statusAt_chunkPieces (b : Block) (st : Status) (s : Sblock) (p : Int) :
    statusAt (chunkPieces b st s) p =
      if s.pos ≤ p ∧ p < s.stop then
        (if b.pos ≤ p ∧ p < b.stop then some st else some s.status)
      else none := by
  rw [chunkPieces, statusAt_append, statusAt_append, statusAt_append]
  rw [statusAt_single_opt, statusAt_single_opt, statusAt_single_opt,
    statusAt_single_opt]
  simp only [Sblock.stop, Block.stop]
  split_ifs <;>
    simp only [Option.or_some, Option.none_or] <;>
    first
      | rfl
      | (exfalso; omega)

theorem statusAt_change_chunk (A : List Sblock) (b : Block) (st : Status) (p : Int) :
    statusAt (change_chunk_status A b st) p =
      if (b.pos ≤ p ∧ p < b.stop) ∧ (statusAt A p).isSome then some st
      else statusAt A p := by
  rw [change_chunk_status]
  by_cases hb : b.size ≤ 0
  · rw [if_pos hb, if_neg (by
      intro hcon
      have h1 := hcon.1.1
      have h2 := hcon.1.2
      simp only [Block.stop] at h2
      omega)]
  · rw [if_neg hb]
    induction A with
    | nil =>
        rw [show ([] : List Sblock).flatMap (chunkPieces b st) = [] from rfl]
        rw [statusAt_nil]
        simp
    | cons s r ih =>
        rw [show (s :: r).flatMap (chunkPieces b st)
            = chunkPieces b st s ++ r.flatMap (chunkPieces b st) from rfl]
        rw [statusAt_append, statusAt_chunkPieces, ih]
        rw [statusAt_cons]
        by_cases hcov : s.pos ≤ p ∧ p < s.stop
        · simp only [if_pos hcov]
          by_cases hinb : b.pos ≤ p ∧ p < b.stop
          · simp only [if_pos hinb, Option.or_some]
            rw [if_pos ⟨hinb, rfl⟩]
          · simp only [if_neg hinb, Option.or_some]
            rw [if_neg (fun hcon => hinb hcon.1)]
        · simp only [if_neg hcov, Option.none_or]

/-- A line of `create_logfile`'s input is admitted: it parsed and the block
number passes the overflow guard of `ddrescuelog.cc:290`. -/
def lineAccepted (h : Int) : InLine → Bool
  | .num k => decide (k ≤ Int.tdiv LLONG_MAX h)
  | .bad => false

/-- A byte is covered by some input block whose range lies in the domain. -/
def markedB (dom : List Block) (h : Int) (input : List InLine) (p : Int) : Bool :=
  input.any (fun l => match l with
    | .num k => decide (k * h ≤ p) && decide (p < k * h + h)
        && domainIncludes dom ⟨k * h, h⟩
    | .bad => false)

theorem create_loop_none_iff (dom : List Block) (h : Int) (t1 : Status) :
    ∀ (input : List InLine) (A : List Sblock),
      (create_logfile_loop dom h t1 input A = none ↔
        ∃ l ∈ input, lineAccepted h l = false) := by
  intro input
  induction input with
  | nil =>
      intro A
      simp [create_logfile_loop]
  | cons l r ih =>
      intro A
      cases l with
      | bad => simp [create_logfile_loop, lineAccepted]
      | num k =>
          by_cases hg : k > Int.tdiv LLONG_MAX h
          · rw [create_logfile_loop, if_pos hg]
            simp only [true_iff]
            exact ⟨.num k, List.mem_cons_self _ _, by
              simp [lineAccepted]
              omega⟩
          · rw [create_logfile_loop, if_neg hg, ih]
            constructor
            · rintro ⟨l, hl, hacc⟩
              exact ⟨l, List.mem_cons_of_mem _ hl, hacc⟩
            · rintro ⟨l, hl, hacc⟩
              rcases List.mem_cons.mp hl with rfl | hl2
              · rw [show lineAccepted h (.num k) =
                    decide (k ≤ Int.tdiv LLONG_MAX h) from rfl] at hacc
                simp at hacc
                omega
              · exact ⟨l, hl2, hacc⟩

theorem create_loop_marks (dom : List Block) (h : Int) (t1 : Status) :
    ∀ (input : List InLine) (A : List Sblock),
      (∀ l ∈ input, lineAccepted h l = true) →
      ∃ R, create_logfile_loop dom h t1 input A = some R ∧
        ∀ p, statusAt R p =
          if markedB dom h input p = true ∧ (statusAt A p).isSome then some t1
          else statusAt A p := by
  intro input
  induction input with
  | nil =>
      intro A _
      refine ⟨A, rfl, fun p => ?_⟩
      rw [if_neg (by
        intro hcon
        have := hcon.1
        simp [markedB] at this)]
  | cons l r ih =>
      intro A hacc
      cases l with
      | bad =>
          have := hacc .bad (List.mem_cons_self _ _)
          simp [lineAccepted] at this
      | num k =>
          have hacck := hacc (.num k) (List.mem_cons_self _ _)
          rw [show lineAccepted h (.num k) =
              decide (k ≤ Int.tdiv LLONG_MAX h) from rfl] at hacck
          rw [decide_eq_true_eq] at hacck
          rw [show create_logfile_loop dom h t1 (.num k :: r) A
              = if k > Int.tdiv LLONG_MAX h then none
                else create_logfile_loop dom h t1 r
                  (if domainIncludes dom ⟨k * h, h⟩ then
                    change_chunk_status A ⟨k * h, h⟩ t1 else A) from rfl]
          rw [if_neg (by omega)]
          set A2 := if domainIncludes dom ⟨k * h, h⟩ then
            change_chunk_status A ⟨k * h, h⟩ t1 else A with hA2
          obtain ⟨R, hR, hmap⟩ := ih A2
            (fun l hl => hacc l (List.mem_cons_of_mem _ hl))
          refine ⟨R, hR, fun p => ?_⟩
          have hA2p : statusAt A2 p =
              if ((k * h ≤ p ∧ p < k * h + h) ∧
                  domainIncludes dom ⟨k * h, h⟩ = true) ∧ (statusAt A p).isSome
              then some t1 else statusAt A p := by
            rw [hA2]
            by_cases hinc : domainIncludes dom ⟨k * h, h⟩ = true
            · rw [if_pos hinc, statusAt_change_chunk]
              by_cases hcv : (k * h ≤ p ∧ p < k * h + h) ∧ (statusAt A p).isSome
              · rw [if_pos (by
                  simp only [Block.stop]
                  exact ⟨hcv.1, hcv.2⟩), if_pos ⟨⟨hcv.1, hinc⟩, hcv.2⟩]
              · rw [if_neg (by
                  intro hcon
                  simp only [Block.stop] at hcon
                  exact hcv ⟨hcon.1, hcon.2⟩), if_neg (by
                  intro hcon
                  exact hcv ⟨hcon.1.1, hcon.2⟩)]
            · rw [if_neg hinc, if_neg (fun hcon => hinc hcon.1.2)]
          have hsome : (statusAt A2 p).isSome = (statusAt A p).isSome := by
            rw [hA2p]
            by_cases hcv : ((k * h ≤ p ∧ p < k * h + h) ∧
                domainIncludes dom ⟨k * h, h⟩ = true) ∧ (statusAt A p).isSome
            · rw [if_pos hcv]
              simp [hcv.2]
            · rw [if_neg hcv]
          have hmk : markedB dom h (.num k :: r) p = true ↔
              ((k * h ≤ p ∧ p < k * h + h) ∧
                domainIncludes dom ⟨k * h, h⟩ = true)
              ∨ markedB dom h r p = true := by
            rw [markedB, List.any_cons]
            rw [show (match InLine.num k with
              | .num k => decide (k * h ≤ p) && decide (p < k * h + h)
                  && domainIncludes dom ⟨k * h, h⟩
              | .bad => false)
              = (decide (k * h ≤ p) && decide (p < k * h + h)
                  && domainIncludes dom ⟨k * h, h⟩) from rfl]
            rw [Bool.or_eq_true, Bool.and_eq_true, Bool.and_eq_true]
            rw [markedB]
            constructor
            · rintro (⟨⟨h1, h2⟩, h3⟩ | h4)
              · exact Or.inl ⟨⟨by simpa using h1, by simpa using h2⟩, h3⟩
              · exact Or.inr h4
            · rintro (⟨⟨h1, h2⟩, h3⟩ | h4)
              · exact Or.inl ⟨⟨by simpa using h1, by simpa using h2⟩, h3⟩
              · exact Or.inr h4
          rw [hmap p, hsome, hA2p]
          by_cases hmr : markedB dom h r p = true
          · by_cases hsm : (statusAt A p).isSome
            · rw [if_pos ⟨hmr, hsm⟩, if_pos ⟨hmk.mpr (Or.inr hmr), hsm⟩]
            · rw [if_neg (fun hcon => hsm hcon.2), if_neg (fun hcon => hsm hcon.2),
                if_neg (fun hcon => hsm hcon.2)]
          · rw [if_neg (fun hcon => hmr hcon.1)]
            by_cases hck : ((k * h ≤ p ∧ p < k * h + h) ∧
                domainIncludes dom ⟨k * h, h⟩ = true) ∧ (statusAt A p).isSome
            · rw [if_pos hck, if_pos ⟨hmk.mpr (Or.inl hck.1), hck.2⟩]
            · rw [if_neg hck, if_neg (by
                intro hcon
                rcases hmk.mp hcon.1 with hc1 | hc2
                · exact hck ⟨hc1, hcon.2⟩
                · exact hmr hc2)]

theorem statusAt_crop (e p : Int) (hp : p < e) (s : Sblock) :
    statusAt (if s.stop ≤ e then [s]
      else if s.pos < e then [⟨s.pos, e - s.pos, s.status⟩] else []) p
      = if s.pos ≤ p ∧ p < s.stop then some s.status else none := by
  by_cases h1 : s.stop ≤ e
  · rw [if_pos h1, statusAt_cons, statusAt_nil]
  · rw [if_neg h1]
    simp only [Sblock.stop] at h1
    by_cases h2 : s.pos < e
    · rw [if_pos h2, statusAt_cons, statusAt_nil]
      simp only [Sblock.stop]
      split_ifs <;> first | rfl | (exfalso; omega)
    · rw [if_neg h2, statusAt_nil, if_neg (by
        intro hcon
        have := hcon.1
        simp only [Sblock.stop] at hcon
        omega)]

theorem statusAt_truncate (A : List Sblock) (e p : Int)
    (hp : p < e) (hs : (statusAt A p).isSome) :
    statusAt (truncate_vector A e) p = statusAt A p := by
  have hmain : ∀ B : List Sblock,
      statusAt (B.flatMap (fun s =>
        if s.stop ≤ e then [s]
        else if s.pos < e then [⟨s.pos, e - s.pos, s.status⟩] else [])) p
      = statusAt B p := by
    intro B
    induction B with
    | nil => rfl
    | cons s r ih =>
        rw [show (s :: r).flatMap (fun s =>
              if s.stop ≤ e then [s]
              else if s.pos < e then [⟨s.pos, e - s.pos, s.status⟩] else [])
            = (if s.stop ≤ e then [s]
              else if s.pos < e then [⟨s.pos, e - s.pos, s.status⟩] else [])
              ++ r.flatMap (fun s =>
                if s.stop ≤ e then [s]
                else if s.pos < e then [⟨s.pos, e - s.pos, s.status⟩] else [])
            from rfl]
        rw [statusAt_append, statusAt_crop e p hp, ih, statusAt_cons]
        by_cases hcov : s.pos ≤ p ∧ p < s.stop
        · rw [if_pos hcov, if_pos hcov, Option.or_some]
        · rw [if_neg hcov, if_neg hcov, Option.none_or]
  rw [truncate_vector, statusAt_append, hmain]
  obtain ⟨st, hst⟩ := Option.isSome_iff_exists.mp hs
  rw [hst, Option.or_some]

/-- **C5.** In create mode each input line is accepted iff it is a parsed
block number passing the `block <= LLONG_MAX / hardbs` guard of
`ddrescuelog.cc:290`; a rejected line makes `create_logfile` fail (the
program then exits with status 2), and when all lines are accepted the
resulting map gives status `type1` to every domain byte covered by an
accepted block whose range lies in the domain and `type2` to every other
domain byte. -/
theorem create_logfile_spec (dom : List Block) (h : Int) (t1 t2 : Status)
    (input : List InLine) :
    (create_logfile dom h t1 t2 input = none ↔
      ∃ l ∈ input, lineAccepted h l = false) ∧
    ((∀ l ∈ input, lineAccepted h l = true) →
      ∃ R, create_logfile dom h t1 t2 input = some R ∧
        ∀ p, domainPos dom ≤ p → p < domainEnd dom →
          statusAt R p =
            if markedB dom h input p = true then some t1 else some t2) := by
  have hdef : create_logfile dom h t1 t2 input
      = (create_logfile_loop dom h t1 input
          [⟨domainPos dom, domainEnd dom - domainPos dom, t2⟩]).map
        (fun A => truncate_vector A (domainEnd dom)) := rfl
  constructor
  · rw [hdef, Option.map_eq_none']
    exact create_loop_none_iff dom h t1 input _
  · intro hacc
    obtain ⟨R0, hR0, hmap⟩ := create_loop_marks dom h t1 input
      [⟨domainPos dom, domainEnd dom - domainPos dom, t2⟩] hacc
    refine ⟨truncate_vector R0 (domainEnd dom), by rw [hdef, hR0]; rfl, ?_⟩
    intro p hp1 hp2
    have hA1 : statusAt [⟨domainPos dom, domainEnd dom - domainPos dom, t2⟩] p
        = some t2 := by
      rw [statusAt_cons, if_pos ⟨hp1,
        show p < domainPos dom + (domainEnd dom - domainPos dom) by omega⟩]
    have hRp := hmap p
    rw [hA1] at hRp
    have hsome : (statusAt R0 p).isSome := by
      rw [hRp]
      split_ifs <;> rfl
    rw [statusAt_truncate R0 (domainEnd dom) p hp2 hsome, hRp]
    by_cases hmk : markedB dom h input p = true
    · rw [if_pos ⟨hmk, rfl⟩, if_pos hmk]
    · rw [if_neg (fun hc => hmk hc.1), if_neg hmk]

/-- Witness for C5: over the domain `[0,2048)` with `hardbs = 512`, the single
input line `1` yields a map whose byte 700 (inside block 1's range
`[512,1024)`) is `finished`. -/
theorem create_logfile_spec_witness :
    statusAt ((create_logfile [⟨0, 2048⟩] 512 Status.finished
      Status.bad_sector [InLine.num 1]).getD []) 700 = some Status.finished := by
  obtain ⟨R, hR, hmap⟩ :=
    (create_logfile_spec [⟨0, 2048⟩] 512 Status.finished Status.bad_sector
      [InLine.num 1]).2 (by decide)
  rw [hR]
  have hp := hmap 700 (by decide) (by decide)
  simp only [Option.getD_some]
  rw [hp]
  decide

/-! ### Claim C8 — list-blocks -/

theorem emit_ok (h : Int) (hh : 1 ≤ h) :
    ∀ (fuel : Nat) (block limit last : Int), last ≤ block → 1 ≤ fuel →
      limit ≤ block * h + ((fuel : Int) - 1) * h →
      ∃ last2 out,
        to_badblocks_emit h fuel block limit last
            = some (Except.ok (last2, out))
          ∧ last ≤ last2
          ∧ (∀ q, q ∈ out ↔ (last < q ∧ block ≤ q ∧ q * h < limit))
          ∧ List.Chain' (· < ·) out
          ∧ (∀ q ∈ out, q ≤ last2)
          ∧ (last2 = last ∨ last2 * h < limit) := by
  intro fuel
  induction fuel with
  | zero => intro block limit last _ hf _; omega
  | succ fuel ih =>
      intro block limit last hlb _ hbound
      have hbound' : limit ≤ block * h + (fuel : Int) * h := by
        push_cast at hbound
        linarith
      by_cases hlt : block * h < limit
      · have hfuel1 : 1 ≤ fuel := by
          rcases Nat.eq_zero_or_pos fuel with hf0 | hf1
          · subst hf0
            simp at hbound'
            omega
          · exact hf1
        have hboundr : limit ≤ (block + 1) * h + ((fuel : Int) - 1) * h := by
          linarith
        by_cases hgt : block > last
        · obtain ⟨last2, out2, heq, hle2, hmem2, hch2, hub2, hdis2⟩ :=
            ih (block + 1) limit block (by omega) hfuel1 hboundr
          refine ⟨last2, block :: out2, ?_, by omega, ?_, ?_, ?_, ?_⟩
          · rw [to_badblocks_emit, if_pos hlt, if_pos hgt, heq]
            rfl
          · intro q
            rw [List.mem_cons, hmem2 q]
            constructor
            · rintro (rfl | ⟨h1, h2, h3⟩)
              · exact ⟨hgt, le_refl _, hlt⟩
              · exact ⟨by omega, by omega, h3⟩
            · rintro ⟨h1, h2, h3⟩
              by_cases hq : q = block
              · exact Or.inl hq
              · exact Or.inr ⟨by omega, by omega, h3⟩
          · rw [List.chain'_cons']
            refine ⟨?_, hch2⟩
            intro y hy
            exact ((hmem2 y).mp (List.mem_of_mem_head? hy)).1
          · intro q hq
            rcases List.mem_cons.mp hq with rfl | hq2
            · exact hle2
            · exact hub2 q hq2
          · right
            rcases hdis2 with rfl | h2
            · exact hlt
            · exact h2
        · have hbk : block = last := by omega
          obtain ⟨last2, out2, heq2, hle2, hmem2, hch2, hub2, hdis2⟩ :=
            ih (block + 1) limit last (by omega) hfuel1 hboundr
          refine ⟨last2, out2, ?_, hle2, ?_, hch2, hub2, hdis2⟩
          · rw [to_badblocks_emit, if_pos hlt, if_neg hgt, if_neg (by omega), heq2]
          · intro q
            rw [hmem2 q]
            constructor
            · rintro ⟨h1, h2, h3⟩
              exact ⟨h1, by omega, h3⟩
            · rintro ⟨h1, h2, h3⟩
              exact ⟨h1, by omega, h3⟩
      · refine ⟨last, [], ?_, le_refl _, ?_, List.chain'_nil, ?_, Or.inl rfl⟩
        · rw [to_badblocks_emit, if_neg hlt]
        · intro q
          simp only [List.not_mem_nil, false_iff]
          rintro ⟨h1, h2, h3⟩
          have hmul : block * h ≤ q * h := mul_le_mul_of_nonneg_right h2 (by omega)
          omega
        · intro q hq
          exact absurd hq (List.not_mem_nil q)

/-- The blocks the emit loop of `to_badblocks` visits for an sblock are
exactly the truncating quotients of its byte positions, once those are
nonnegative (which the call site guarantees: the domain starts at `ipos`,
`offset = opos - ipos` and `opos ≥ 0`). -/
theorem blockSet_eq {h P size : Int} (hh : 1 ≤ h) (hP : 0 ≤ P)
    (hsz : 0 < size) (q : Int) :
    (Int.tdiv P h ≤ q ∧ q * h < P + size) ↔
      ∃ x, P ≤ x ∧ x < P + size ∧ q = Int.tdiv x h := by
  have h0 : (0:Int) < h := by omega
  have htd : Int.tdiv P h = P / h := Int.tdiv_eq_ediv hP (by omega)
  have hb0 : 0 ≤ P / h := Int.ediv_nonneg hP (by omega)
  constructor
  · rintro ⟨h1, h2⟩
    by_cases hq : q = Int.tdiv P h
    · exact ⟨P, le_refl _, by omega, hq⟩
    · have hq1 : P / h + 1 ≤ q := by
        rw [htd] at h1 hq
        omega
      have ha := Int.lt_ediv_add_one_mul_self P h0
      have hb : (P / h + 1) * h ≤ q * h :=
        mul_le_mul_of_nonneg_right hq1 (by omega)
      refine ⟨q * h, by linarith, h2, ?_⟩
      have hqnn : 0 ≤ q := by rw [htd] at h1; omega
      have hqh : 0 ≤ q * h := mul_nonneg hqnn (by omega)
      rw [Int.tdiv_eq_ediv hqh (by omega), Int.mul_ediv_cancel q (by omega)]
  · rintro ⟨x, hx1, hx2, rfl⟩
    have hx0 : 0 ≤ x := by omega
    rw [htd, Int.tdiv_eq_ediv hx0 (by omega)]
    constructor
    · exact Int.ediv_le_ediv h0 hx1
    · have := Int.ediv_mul_le x (show h ≠ 0 by omega)
      linarith

theorem to_badblocks_ok (dom : List Block) (h offset : Int) (bt : List Status)
    (hh : 1 ≤ h) (hdom : DomBounded dom) :
    ∀ (A : List Sblock) (last : Int), SbChain A → PosSizes A →
      (∀ s ∈ A, domainIncludes dom s.toBlock = true → 0 ≤ s.pos + offset) →
      (∀ s ∈ A, domainIncludes dom s.toBlock = true →
        last * h < s.pos + offset) →
      ∃ out, to_badblocks dom h offset bt A last = some (Except.ok out)
        ∧ List.Chain' (· < ·) out
        ∧ (∀ q ∈ out, last < q)
        ∧ (∀ q, q ∈ out ↔ (last < q ∧ ∃ s ∈ A,
            domainIncludes dom s.toBlock = true ∧ bt.contains s.status = true ∧
            ∃ p, s.pos ≤ p ∧ p < s.stop ∧ q = Int.tdiv (p + offset) h)) := by
  intro A
  induction A with
  | nil =>
      intro last _ _ _ _
      refine ⟨[], rfl, List.chain'_nil, by simp, fun q => ?_⟩
      simp
  | cons sb r ih =>
      intro last hc hp hoff hlast
      by_cases hinc : domainIncludes dom sb.toBlock = true
      · by_cases hbt : bt.contains sb.status = true
        · -- the emit case
          have hsz : 0 < sb.size := hp sb (List.mem_cons_self _ _)
          have hstopEq : sb.stop = sb.pos + sb.size := rfl
          have hP : 0 ≤ sb.pos + offset := hoff sb (List.mem_cons_self _ _) hinc
          have hlastP : last * h < sb.pos + offset :=
            hlast sb (List.mem_cons_self _ _) hinc
          have h0 : (0:Int) < h := by omega
          have htd : Int.tdiv (sb.pos + offset) h = (sb.pos + offset) / h :=
            Int.tdiv_eq_ediv hP (by omega)
          have hlb : last ≤ Int.tdiv (sb.pos + offset) h := by
            rw [htd]
            exact (Int.le_ediv_iff_mul_le h0).mpr (by omega)
          have hfb : sb.stop + offset ≤ Int.tdiv (sb.pos + offset) h * h
              + (((sb.size.toNat + 2 : Nat) : Int) - 1) * h := by
            have hcast : ((sb.size.toNat : Nat) : Int) = sb.size :=
              Int.toNat_of_nonneg (by omega)
            have hlow := Int.lt_ediv_add_one_mul_self (sb.pos + offset) h0
            have hmul : sb.size ≤ sb.size * h :=
              le_mul_of_one_le_right (by omega) hh
            rw [htd]
            push_cast
            rw [hcast]
            simp only [Sblock.stop]
            linarith
          obtain ⟨last2, out1, hemit, hle2, hmem1, hch1, hub1, hdis2⟩ :=
            emit_ok h hh (sb.size.toNat + 2) (Int.tdiv (sb.pos + offset) h)
              (sb.stop + offset) last hlb (by omega) hfb
          have hstopP : ∀ s ∈ r, sb.stop ≤ s.pos :=
            chain_tail_pos hc (fun s hs => le_of_lt (hp s hs))
          have hlast2 : ∀ s ∈ r, domainIncludes dom s.toBlock = true →
              last2 * h < s.pos + offset := by
            intro s hs hi
            rcases hdis2 with rfl | hd
            · exact hlast s (List.mem_cons_of_mem _ hs) hi
            · have := hstopP s hs
              linarith
          obtain ⟨out2, hout2, hch2, hgt2, hmem2⟩ :=
            ih last2 (sbChain_cons hc) (posSizes_cons hp)
              (fun s hs hi => hoff s (List.mem_cons_of_mem _ hs) hi) hlast2
          refine ⟨out1 ++ out2, ?_, ?_, ?_, ?_⟩
          · rw [to_badblocks, if_neg (not_not_intro hinc),
              if_neg (not_not_intro hbt), hemit]
            show (to_badblocks dom h offset bt r last2).map
              (fun r2 => r2.map (fun l => out1 ++ l))
              = some (Except.ok (out1 ++ out2))
            rw [hout2]
            rfl
          · rw [List.chain'_append]
            refine ⟨hch1, hch2, ?_⟩
            intro x hx y hy
            have h1 := hub1 x (List.mem_of_getLast?_eq_some (Option.mem_def.mp hx))
            have h2 := hgt2 y (List.mem_of_mem_head? hy)
            omega
          · intro q hq
            rcases List.mem_append.mp hq with h1 | h2
            · exact ((hmem1 q).mp h1).1
            · have := hgt2 q h2
              omega
          · intro q
            rw [List.mem_append, hmem1 q, hmem2 q]
            constructor
            · rintro (⟨h1, h2, h3⟩ | ⟨h1, s, hs, rest⟩)
              · refine ⟨h1, sb, List.mem_cons_self _ _, hinc, hbt, ?_⟩
                have h3' : q * h < (sb.pos + offset) + sb.size := by
                  simp only [Sblock.stop] at h3
                  linarith
                obtain ⟨x, hx1, hx2, hx3⟩ :=
                  (blockSet_eq hh hP hsz q).mp ⟨h2, h3'⟩
                refine ⟨x - offset, by omega, ?_, ?_⟩
                · simp only [Sblock.stop]
                  omega
                · rw [show x - offset + offset = x from by ring]
                  exact hx3
              · exact ⟨by omega, s, List.mem_cons_of_mem _ hs, rest⟩
            · rintro ⟨h1, s, hs, hsi, hsb, p, hp1, hp2, hq⟩
              rcases List.mem_cons.mp hs with rfl | hs2
              · left
                have hxa := (blockSet_eq hh hP hsz q).mpr
                  ⟨p + offset, by omega,
                    by simp only [Sblock.stop] at hp2 ⊢; omega, hq⟩
                refine ⟨h1, hxa.1, ?_⟩
                have := hxa.2
                simp only [Sblock.stop]
                linarith
              · by_cases hq2 : last2 < q
                · exact Or.inr ⟨hq2, s, hs2, hsi, hsb, p, hp1, hp2, hq⟩
                · left
                  have hdL : last2 * h < sb.stop + offset := by
                    rcases hdis2 with rfl | hd
                    · exact absurd h1 (by omega)
                    · exact hd
                  have hql : q * h ≤ last2 * h :=
                    mul_le_mul_of_nonneg_right (by omega) (by omega)
                  have hsp : sb.stop ≤ s.pos := hstopP s hs2
                  have hpo : 0 ≤ p + offset := by
                    have := hoff s (List.mem_cons_of_mem _ hs2) hsi
                    omega
                  refine ⟨h1, ?_, by linarith⟩
                  rw [hq, htd, Int.tdiv_eq_ediv hpo (by omega)]
                  exact Int.ediv_le_ediv h0 (by omega)
        · -- included but not a selected status
          obtain ⟨out, hout, hch, hgt, hmem⟩ :=
            ih last (sbChain_cons hc) (posSizes_cons hp)
              (fun s hs hi => hoff s (List.mem_cons_of_mem _ hs) hi)
              (fun s hs hi => hlast s (List.mem_cons_of_mem _ hs) hi)
          refine ⟨out, ?_, hch, hgt, fun q => ?_⟩
          · rw [to_badblocks, if_neg (not_not_intro hinc), if_pos hbt, hout]
          · rw [hmem q]
            constructor
            · rintro ⟨h1, s, hs, rest⟩
              exact ⟨h1, s, List.mem_cons_of_mem _ hs, rest⟩
            · rintro ⟨h1, s, hs, hsi, hsb, rest⟩
              rcases List.mem_cons.mp hs with rfl | hs2
              · exact absurd hsb hbt
              · exact ⟨h1, s, hs2, hsi, hsb, rest⟩
      · by_cases hltd : domainLt dom sb.toBlock = true
        · -- the break case: nothing behind the domain is included
          have hnone := not_included_after_domain hdom hc hp hltd
          refine ⟨[], ?_, List.chain'_nil, by simp, fun q => ?_⟩
          · rw [to_badblocks, if_pos hinc, if_pos hltd]
          · simp only [List.not_mem_nil, false_iff]
            rintro ⟨h1, s, hs, hsi, -⟩
            rw [hnone s hs] at hsi
            exact Bool.false_ne_true hsi
        · -- skipped sblock
          obtain ⟨out, hout, hch, hgt, hmem⟩ :=
            ih last (sbChain_cons hc) (posSizes_cons hp)
              (fun s hs hi => hoff s (List.mem_cons_of_mem _ hs) hi)
              (fun s hs hi => hlast s (List.mem_cons_of_mem _ hs) hi)
          refine ⟨out, ?_, hch, hgt, fun q => ?_⟩
          · rw [to_badblocks, if_pos hinc, if_neg hltd, hout]
          · rw [hmem q]
            constructor
            · rintro ⟨h1, s, hs, rest⟩
              exact ⟨h1, s, List.mem_cons_of_mem _ hs, rest⟩
            · rintro ⟨h1, s, hs, hsi, rest⟩
              rcases List.mem_cons.mp hs with rfl | hs2
              · exact absurd hsi hinc
              · exact ⟨h1, s, hs2, hsi, rest⟩

/-- **C8.** `--list-blocks` (`to_badblocks`, `ddrescuelog.cc:345-371`) prints
one block number per line in strictly ascending order with duplicates
suppressed; the set of printed numbers is exactly the truncating quotients
`(byte + offset) / hardbs` of the bytes lying in domain-included sblocks of
a selected status; and the run never ends in the "block out of order"
internal error (the result is `Except.ok`, never `Except.error`).  The
nonnegativity hypothesis on `pos + offset` holds at the call site: the
domain starts at `ipos`, the offset is `opos - ipos` and `opos ≥ 0`
(`ddrescuelog.cc:564,588,603,620`). -/
theorem to_badblocks_spec (dom : List Block) (h offset : Int) (bt : List Status)
    (A : List Sblock) (hh : 1 ≤ h) (hdom : DomBounded dom)
    (hc : SbChain A) (hp : PosSizes A)
    (hoff : ∀ s ∈ A, domainIncludes dom s.toBlock = true → 0 ≤ s.pos + offset) :
    ∃ out, to_badblocks dom h offset bt A (-1) = some (Except.ok out)
      ∧ List.Chain' (· < ·) out
      ∧ ∀ q, q ∈ out ↔ ∃ s ∈ A, domainIncludes dom s.toBlock = true
          ∧ bt.contains s.status = true
          ∧ ∃ p, s.pos ≤ p ∧ p < s.stop ∧ q = Int.tdiv (p + offset) h := by
  obtain ⟨out, hout, hch, hgt, hmem⟩ :=
    to_badblocks_ok dom h offset bt hh hdom A (-1) hc hp hoff
      (fun s hs hi => by
        have := hoff s hs hi
        omega)
  refine ⟨out, hout, hch, fun q => ?_⟩
  rw [hmem q]
  constructor
  · rintro ⟨-, rest⟩
    exact rest
  · intro rest
    refine ⟨?_, rest⟩
    obtain ⟨s, hs, hsi, hsb, p, hp1, hp2, hq⟩ := rest
    have hpo : 0 ≤ p + offset := by
      have := hoff s hs hsi
      omega
    rw [hq, Int.tdiv_eq_ediv hpo (by omega)]
    have := Int.ediv_nonneg hpo (show (0:Int) ≤ h by omega)
    omega

/-- Witness for C8: two bad hardblocks of 512 bytes print as `0` and `1`,
in order, with no internal error. -/
theorem to_badblocks_spec_witness :
    to_badblocks [⟨0, 2048⟩] 512 0 [Status.bad_sector]
        [⟨0, 1024, .bad_sector⟩, ⟨1024, 1024, .finished⟩] (-1)
      = some (Except.ok [0, 1])
    ∧ List.Chain' (· < ·) ([0, 1] : List Int) := by
  obtain ⟨out, hout, hch, hmem⟩ :=
    to_badblocks_spec [⟨0, 2048⟩] 512 0 [Status.bad_sector]
      [⟨0, 1024, .bad_sector⟩, ⟨1024, 1024, .finished⟩] (by norm_num)
      (by intro d hd; fin_cases hd <;> simp [domainEnd, Block.stop])
      (by simp [SbChain, List.chain'_cons, Sblock.stop])
      (by intro s hs; fin_cases hs <;> norm_num)
      (by intro s hs hi; fin_cases hs <;> norm_num)
  have hconc : to_badblocks [⟨0, 2048⟩] 512 0 [Status.bad_sector]
      [⟨0, 1024, .bad_sector⟩, ⟨1024, 1024, .finished⟩] (-1)
      = some (Except.ok [0, 1]) := by rfl
  refine ⟨hconc, ?_⟩
  have hoo : out = [0, 1] := by
    rw [hconc] at hout
    exact (Except.ok.inj (Option.some.inj hout)).symm
  rw [hoo] at hch
  exact hch

/-! ### Claim C1 — the AND operation -/

/-- A byte is `finished` in the second logbook. -/
def finishedInB (B : List Sblock) (p : Int) : Bool :=
  B.any (fun s => decide (s.status = Status.finished) && decide (s.pos ≤ p)
    && decide (p < s.stop))

/-- The per-byte value the AND loop gives to a byte of sblock `sb`: a byte of
a domain-included `finished` sblock becomes `finished` when also `finished`
in the second logbook and `bad_sector` otherwise; every other byte keeps the
sblock's status. -/
def andPayload (dom : List Block) (B : List Sblock) (sb : Sblock)
    (p : Int) : Option Status :=
  if domainIncludes dom sb.toBlock = true ∧ sb.status = Status.finished then
    (if finishedInB B p then some Status.finished else some Status.bad_sector)
  else some sb.status

/-- The per-byte meaning of the AND loop over an unprocessed suffix `S`. -/
def andTarget (dom : List Block) (B : List Sblock) (S : List Sblock)
    (p : Int) : Option Status :=
  match S.find? (fun s => decide (s.pos ≤ p) && decide (p < s.stop)) with
  | none => none
  | some sb => andPayload dom B sb p

theorem andTarget_nil (dom : List Block) (B : List Sblock) (p : Int) :
    andTarget dom B [] p = none := rfl

theorem andTarget_cons (dom : List Block) (B : List Sblock) (sb : Sblock)
    (rest : List Sblock) (p : Int) :
    andTarget dom B (sb :: rest) p =
      if sb.pos ≤ p ∧ p < sb.stop then andPayload dom B sb p
      else andTarget dom B rest p := by
  by_cases h : sb.pos ≤ p ∧ p < sb.stop
  · rw [if_pos h, andTarget, List.find?_cons_of_pos _ (by simp [h.1, h.2])]
  · rw [if_neg h, andTarget, List.find?_cons_of_neg, andTarget]
    rw [Bool.and_eq_true, decide_eq_true_eq, decide_eq_true_eq]
    exact fun hcon => h hcon

/-- Termination measure of the AND loop on the unprocessed suffix. -/
def andMeasure (S : List Sblock) : Nat :=
  (S.map (fun s => 2 * s.size.toNat + 1
    + (if s.status = Status.finished then 2 * s.size.toNat else 0))).sum

theorem andMeasure_cons (s : Sblock) (r : List Sblock) :
    andMeasure (s :: r) = (2 * s.size.toNat + 1
      + (if s.status = Status.finished then 2 * s.size.toNat else 0))
      + andMeasure r := rfl

theorem andMeasure_le (A : List Sblock) :
    andMeasure A ≤ 4 * sizeSum A + A.length := by
  induction A with
  | nil => simp [andMeasure, sizeSum]
  | cons s r ih =>
      rw [andMeasure_cons, show sizeSum (s :: r) = s.size.toNat + sizeSum r
        from rfl, List.length_cons]
      split_ifs <;> omega

theorem finishedInB_of_cover {B : List Sblock} {s : Sblock} (hs : s ∈ B)
    (hf : s.status = Status.finished) {p : Int} (h1 : s.pos ≤ p)
    (h2 : p < s.stop) : finishedInB B p = true := by
  rw [finishedInB, List.any_eq_true]
  exact ⟨s, hs, by simp [hf, h1, h2]⟩

theorem finishedInB_false_of_none {B : List Sblock} {q : Int}
    (h : B.find? (fun s => decide (s.status = Status.finished)
      && decide (q < s.stop)) = none)
    {p : Int} (hp : q ≤ p) : finishedInB B p = false := by
  rw [List.find?_eq_none] at h
  cases hfb : finishedInB B p with
  | false => rfl
  | true =>
      exfalso
      rw [finishedInB, List.any_eq_true] at hfb
      obtain ⟨t, ht, hpt⟩ := hfb
      simp only [Bool.and_eq_true, decide_eq_true_eq] at hpt
      have hnt := h t ht
      simp only [Bool.and_eq_true, decide_eq_true_eq, not_and] at hnt
      exact absurd (by omega : q < t.stop) (hnt hpt.1.1)

theorem finishedInB_false_before {B : List Sblock} {q : Int} {s : Sblock}
    (hcB : SbChain B) (hpB : PosSizes B)
    (h : B.find? (fun t => decide (t.status = Status.finished)
      && decide (q < t.stop)) = some s)
    {p : Int} (hp1 : q ≤ p) (hp2 : p < s.pos) : finishedInB B p = false := by
  rw [List.find?_eq_some] at h
  obtain ⟨hpred, l1, l2, hB, hbefore⟩ := h
  cases hfb : finishedInB B p with
  | false => rfl
  | true =>
      exfalso
      rw [finishedInB, List.any_eq_true] at hfb
      obtain ⟨t, ht, hpt⟩ := hfb
      simp only [Bool.and_eq_true, decide_eq_true_eq] at hpt
      obtain ⟨⟨htf, htp1⟩, htp2⟩ := hpt
      rw [hB] at ht
      rcases List.mem_append.mp ht with h1 | h2
      · have hnt := hbefore t h1
        simp [htf] at hnt
        omega
      · rcases List.mem_cons.mp h2 with rfl | h3
        · omega
        · have hchainS : SbChain (s :: l2) := by
            rw [hB] at hcB
            exact (List.chain'_append.mp hcB).2.1
          have hts : s.stop ≤ t.pos := chain_tail_pos hchainS
            (fun x hx => le_of_lt (hpB x (by
              rw [hB]
              exact List.mem_append_right _ hx))) t h3
          have hssz : 0 < s.size := hpB s (by
            rw [hB]
            exact List.mem_append_right _ (List.mem_cons_self _ _))
          have hse : s.stop = s.pos + s.size := rfl
          omega

theorem find_chunk_and (B : List Sblock) (sb : Sblock) (hsz : 0 < sb.size) :
    find_chunk B sb.toBlock Status.finished =
      (match B.find? (fun s => decide (s.status = Status.finished)
          && decide (sb.pos < s.stop)) with
       | none => ⟨sb.pos, 0⟩
       | some s => ⟨max sb.pos s.pos, min sb.stop s.stop - max sb.pos s.pos⟩) := by
  rw [find_chunk, if_neg (show ¬ sb.toBlock.size ≤ 0 from by
    show ¬ sb.size ≤ 0
    omega)]
  rfl

theorem chain_stop_le_head : ∀ (P S : List Sblock), SbChain (P ++ S) →
    (∀ s ∈ P ++ S, 0 ≤ s.size) → ∀ x ∈ P, ∀ y ∈ S.head?, x.stop ≤ y.pos := by
  intro P
  induction P with
  | nil =>
      intro S _ _ x hx
      exact absurd hx (by simp)
  | cons a P ih =>
      intro S hc hs x hx y hy
      have hc2 : SbChain (P ++ S) := (List.chain'_cons'.mp hc).2
      have hlink := (List.chain'_cons'.mp hc).1
      rcases List.mem_cons.mp hx with rfl | hx2
      · cases hP : P with
        | nil =>
            have : x.stop = y.pos := by
              apply hlink
              rw [hP]
              simpa using hy
            omega
        | cons b P2 =>
            have hab : x.stop = b.pos := by
              apply hlink
              rw [hP]
              simp
            have hbP : b ∈ P := by
              rw [hP]
              exact List.mem_cons_self _ _
            have hbp : b.stop ≤ y.pos :=
              ih S hc2 (fun s hs2 => hs s (List.mem_cons_of_mem _ hs2)) b hbP y hy
            have hbsz : 0 ≤ b.size :=
              hs b (List.mem_cons_of_mem _ (List.mem_append_left _ hbP))
            have hbe : b.stop = b.pos + b.size := rfl
            omega
      · exact ih S hc2 (fun s hs2 => hs s (List.mem_cons_of_mem _ hs2)) x hx2 y hy

theorem includes_sub {dom : List Block} {b b' : Block}
    (h : domainIncludes dom b = true) (h1 : b.pos ≤ b'.pos)
    (h2 : b'.stop ≤ b.stop) : domainIncludes dom b' = true := by
  rw [domainIncludes, List.any_eq_true] at h ⊢
  obtain ⟨d, hd, hdp⟩ := h
  refine ⟨d, hd, ?_⟩
  simp only [Bool.and_eq_true, decide_eq_true_eq] at hdp ⊢
  simp only [Block.stop] at h2 hdp ⊢
  omega

theorem chunkPieces_away (c : Block) (st : Status) (s : Sblock)
    (hsz : 0 < s.size) (hc : 0 < c.size)
    (hdis : s.stop ≤ c.pos ∨ c.stop ≤ s.pos) :
    chunkPieces c st s = [s] := by
  have hss : s.stop = s.pos + s.size := rfl
  have hcc : c.stop = c.pos + c.size := rfl
  rw [chunkPieces, if_neg (by omega), if_neg (by omega), if_neg (by omega),
    if_pos (by omega)]
  rfl

theorem chunkPieces_front (c : Block) (st : Status) (sb : Sblock)
    (h1 : c.pos = sb.pos) (h2 : sb.pos < c.stop) (h3 : c.stop < sb.stop) :
    chunkPieces c st sb =
      [⟨sb.pos, c.stop - sb.pos, st⟩, ⟨c.stop, sb.stop - c.stop, sb.status⟩] := by
  rw [chunkPieces, if_neg (by omega), if_pos (by omega), if_pos (by omega),
    if_neg (by omega)]
  have hmax : max sb.pos c.pos = sb.pos := by omega
  have hmin : min sb.stop c.stop = c.stop := by omega
  rw [hmax, hmin]
  rfl

theorem flatMap_eq_self {f : Sblock → List Sblock} :
    ∀ {l : List Sblock}, (∀ s ∈ l, f s = [s]) → l.flatMap f = l := by
  intro l
  induction l with
  | nil => intro _; rfl
  | cons a l ih =>
      intro h
      rw [show (a :: l).flatMap f = f a ++ l.flatMap f from rfl,
        h a (List.mem_cons_self _ _), ih (fun s hs => h s (List.mem_cons_of_mem _ hs))]
      rfl

theorem sbChain_mid1 (P rest : List Sblock) (sb x : Sblock)
    (hpos : x.pos = sb.pos) (hstop : x.stop = sb.stop)
    (hc : SbChain (P ++ sb :: rest)) : SbChain (P ++ x :: rest) := by
  rw [SbChain] at hc ⊢
  obtain ⟨hP, hS, hlink⟩ := List.chain'_append.mp hc
  obtain ⟨hheadlink, hrest⟩ := List.chain'_cons'.mp hS
  refine List.chain'_append.mpr ⟨hP, List.chain'_cons'.mpr ⟨?_, hrest⟩, ?_⟩
  · intro y hy
    rw [hstop]
    exact hheadlink y hy
  · intro a ha z hz
    simp only [List.head?_cons, Option.mem_def, Option.some.injEq] at hz
    subst hz
    rw [hpos]
    exact hlink a ha sb (by simp)

theorem sbChain_mid2 (P rest : List Sblock) (sb x y : Sblock)
    (hpos : x.pos = sb.pos) (hmid : x.stop = y.pos) (hstop : y.stop = sb.stop)
    (hc : SbChain (P ++ sb :: rest)) : SbChain (P ++ x :: y :: rest) := by
  rw [SbChain] at hc ⊢
  obtain ⟨hP, hS, hlink⟩ := List.chain'_append.mp hc
  obtain ⟨hheadlink, hrest⟩ := List.chain'_cons'.mp hS
  refine List.chain'_append.mpr ⟨hP,
    List.chain'_cons'.mpr ⟨?_, List.chain'_cons'.mpr ⟨?_, hrest⟩⟩, ?_⟩
  · intro z hz
    simp only [List.head?_cons, Option.mem_def, Option.some.injEq] at hz
    subst hz
    exact hmid
  · intro z hz
    rw [hstop]
    exact hheadlink z hz
  · intro a ha z hz
    simp only [List.head?_cons, Option.mem_def, Option.some.injEq] at hz
    subst hz
    rw [hpos]
    exact hlink a ha sb (by simp)

theorem getElem?_append_len (P : List Sblock) (sb : Sblock) (rest : List Sblock) :
    (P ++ sb :: rest)[P.length]? = some sb := by
  rw [List.getElem?_append_right (le_refl _)]
  simp

theorem change_sblock_at_len (P : List Sblock) (sb : Sblock) (rest : List Sblock)
    (st : Status) :
    change_sblock_status (P ++ sb :: rest) P.length st
      = P ++ { sb with status := st } :: rest := by
  rw [change_sblock_status, getElem?_append_len]
  show (P ++ sb :: rest).set P.length { sb with status := st }
    = P ++ { sb with status := st } :: rest
  rw [List.set_append_right _ _ (le_refl _)]
  simp

theorem split_sblock_at_len (P : List Sblock) (sb : Sblock) (rest : List Sblock)
    (m : Int) (h1 : sb.pos < m) (h2 : m < sb.stop) :
    split_sblock_by (P ++ sb :: rest) m P.length
      = P ++ ⟨sb.pos, m - sb.pos, sb.status⟩ :: ⟨m, sb.stop - m, sb.status⟩ :: rest := by
  rw [split_sblock_by, getElem?_append_len]
  show (if (decide (sb.pos < m) && decide (m < sb.stop)) = true then
      List.take P.length (P ++ sb :: rest) ++
        ⟨sb.pos, m - sb.pos, sb.status⟩ :: ⟨m, sb.stop - m, sb.status⟩
          :: List.drop (P.length + 1) (P ++ sb :: rest)
    else P ++ sb :: rest)
    = P ++ ⟨sb.pos, m - sb.pos, sb.status⟩ :: ⟨m, sb.stop - m, sb.status⟩ :: rest
  rw [if_pos (by simp [h1, h2]), List.take_left, ← List.drop_drop,
    List.drop_left]
  rfl

theorem change_chunk_at_len (P : List Sblock) (sb : Sblock) (rest : List Sblock)
    (c : Block) (st : Status)
    (hc : SbChain (P ++ sb :: rest)) (hp : PosSizes (P ++ sb :: rest))
    (h1 : c.pos = sb.pos) (h2 : sb.pos < c.stop) (h3 : c.stop < sb.stop) :
    change_chunk_status (P ++ sb :: rest) c st
      = P ++ ⟨sb.pos, c.stop - sb.pos, st⟩
          :: ⟨c.stop, sb.stop - c.stop, sb.status⟩ :: rest := by
  have hce : c.stop = c.pos + c.size := rfl
  have hcsz : 0 < c.size := by omega
  rw [change_chunk_status, if_neg (by omega)]
  rw [List.flatMap_append, show (sb :: rest).flatMap (chunkPieces c st)
      = chunkPieces c st sb ++ rest.flatMap (chunkPieces c st) from rfl]
  rw [chunkPieces_front c st sb h1 h2 h3]
  rw [flatMap_eq_self (fun s hs => chunkPieces_away c st s
    (hp s (List.mem_append_left _ hs)) hcsz
    (Or.inl (by
      have := chain_stop_le_head P (sb :: rest) hc
        (fun t ht => le_of_lt (hp t ht)) s hs sb (by simp)
      omega)))]
  rw [flatMap_eq_self (fun s hs => chunkPieces_away c st s
    (hp s (List.mem_append_right _ (List.mem_cons_of_mem _ hs))) hcsz
    (Or.inr (by
      have hts := chain_tail_pos (by
        rw [SbChain]
        exact (List.chain'_append.mp hc).2.1 : SbChain (sb :: rest))
        (fun t ht => le_of_lt (hp t (List.mem_append_right _ ht))) s hs
      omega)))]
  rfl

theorem and_rewrite_step (dom : List Block) (B : List Sblock) (P : List Sblock)
    (sb x : Sblock) (rest : List Sblock)
    (hpos : x.pos = sb.pos) (hstop : x.stop = sb.stop)
    (hpay : ∀ p, sb.pos ≤ p → p < sb.stop →
      andPayload dom B sb p = some x.status) (p : Int) :
    (statusAt (P ++ [x]) p).or (andTarget dom B rest p)
      = (statusAt P p).or (andTarget dom B (sb :: rest) p) := by
  rw [statusAt_append, statusAt_cons, statusAt_nil, andTarget_cons]
  by_cases hcov : sb.pos ≤ p ∧ p < sb.stop
  · rw [if_pos (by omega : x.pos ≤ p ∧ p < x.stop), if_pos hcov,
      hpay p hcov.1 hcov.2]
    cases statusAt P p <;> rfl
  · rw [if_neg (by omega : ¬ (x.pos ≤ p ∧ p < x.stop)), if_neg hcov]
    cases statusAt P p <;> rfl

theorem and_split_step (dom : List Block) (B : List Sblock) (P : List Sblock)
    (sb h1 h2 : Sblock) (rest : List Sblock)
    (hp1 : h1.pos = sb.pos) (hm : h1.stop = h2.pos) (hp2 : h2.stop = sb.stop)
    (hsz1 : h1.pos ≤ h1.stop) (hsz2 : h2.pos ≤ h2.stop)
    (hpay1 : ∀ p, h1.pos ≤ p → p < h1.stop →
      andPayload dom B sb p = some h1.status)
    (hpay2 : ∀ p, h2.pos ≤ p → p < h2.stop →
      andPayload dom B h2 p = andPayload dom B sb p) (p : Int) :
    (statusAt (P ++ [h1]) p).or (andTarget dom B (h2 :: rest) p)
      = (statusAt P p).or (andTarget dom B (sb :: rest) p) := by
  rw [statusAt_append, statusAt_cons, statusAt_nil, andTarget_cons,
    andTarget_cons]
  by_cases hcov1 : h1.pos ≤ p ∧ p < h1.stop
  · rw [if_pos hcov1, if_neg (by omega : ¬ (h2.pos ≤ p ∧ p < h2.stop)),
      if_pos (by omega : sb.pos ≤ p ∧ p < sb.stop), hpay1 p hcov1.1 hcov1.2]
    cases statusAt P p <;> rfl
  · rw [if_neg hcov1]
    by_cases hcov2 : h2.pos ≤ p ∧ p < h2.stop
    · rw [if_pos hcov2, if_pos (by omega : sb.pos ≤ p ∧ p < sb.stop),
        hpay2 p hcov2.1 hcov2.2]
      cases statusAt P p <;> rfl
    · rw [if_neg hcov2, if_neg (by omega : ¬ (sb.pos ≤ p ∧ p < sb.stop))]
      cases statusAt P p <;> rfl

theorem and_chunk_step (dom : List Block) (B : List Sblock)
    (sb q1 q2 : Sblock) (rest : List Sblock)
    (hp1 : q1.pos = sb.pos) (hm : q1.stop = q2.pos) (hp2 : q2.stop = sb.stop)
    (hsz1 : q1.pos ≤ q1.stop) (hsz2 : q2.pos ≤ q2.stop)
    (hpay1 : ∀ p, q1.pos ≤ p → p < q1.stop →
      andPayload dom B q1 p = andPayload dom B sb p)
    (hpay2 : ∀ p, q2.pos ≤ p → p < q2.stop →
      andPayload dom B q2 p = andPayload dom B sb p) (p : Int) :
    andTarget dom B (q1 :: q2 :: rest) p = andTarget dom B (sb :: rest) p := by
  rw [andTarget_cons, andTarget_cons, andTarget_cons]
  by_cases hcov1 : q1.pos ≤ p ∧ p < q1.stop
  · rw [if_pos hcov1, if_pos (by omega : sb.pos ≤ p ∧ p < sb.stop),
      hpay1 p hcov1.1 hcov1.2]
  · rw [if_neg hcov1]
    by_cases hcov2 : q2.pos ≤ p ∧ p < q2.stop
    · rw [if_pos hcov2, if_pos (by omega : sb.pos ≤ p ∧ p < sb.stop),
        hpay2 p hcov2.1 hcov2.2]
    · rw [if_neg hcov2, if_neg (by omega : ¬ (sb.pos ≤ p ∧ p < sb.stop))]

theorem and_step_break (dom : List Block) (B : List Sblock) (fuel : Nat)
    (A : List Sblock) (i : Nat) (sb : Sblock) (hidx : A[i]? = some sb)
    (hinc : ¬ domainIncludes dom sb.toBlock = true)
    (hlt : domainLt dom sb.toBlock = true) :
    do_logic_ops_loop dom B LMode.m_and (fuel + 1) A i = some A := by
  simp only [do_logic_ops_loop, hidx]
  rw [if_pos hinc, if_pos hlt]

theorem and_step_skip (dom : List Block) (B : List Sblock) (fuel : Nat)
    (A : List Sblock) (i : Nat) (sb : Sblock) (hidx : A[i]? = some sb)
    (hinc : ¬ domainIncludes dom sb.toBlock = true)
    (hlt : ¬ domainLt dom sb.toBlock = true) :
    do_logic_ops_loop dom B LMode.m_and (fuel + 1) A i
      = do_logic_ops_loop dom B LMode.m_and fuel A (i + 1) := by
  simp only [do_logic_ops_loop, hidx]
  rw [if_pos hinc, if_neg hlt]

theorem and_step_notfin (dom : List Block) (B : List Sblock) (fuel : Nat)
    (A : List Sblock) (i : Nat) (sb : Sblock) (hidx : A[i]? = some sb)
    (hinc : domainIncludes dom sb.toBlock = true)
    (hfin : ¬ sb.status = Status.finished) :
    do_logic_ops_loop dom B LMode.m_and (fuel + 1) A i
      = do_logic_ops_loop dom B LMode.m_and fuel A (i + 1) := by
  simp only [do_logic_ops_loop, hidx]
  rw [if_neg (not_not_intro hinc), if_pos hfin]

theorem and_step_none (dom : List Block) (B : List Sblock) (fuel : Nat)
    (A : List Sblock) (i : Nat) (sb : Sblock) (hidx : A[i]? = some sb)
    (hinc : domainIncludes dom sb.toBlock = true)
    (hfin : sb.status = Status.finished) (hsz : 0 < sb.size)
    (hfc : B.find? (fun s => decide (s.status = Status.finished)
      && decide (sb.pos < s.stop)) = none) :
    do_logic_ops_loop dom B LMode.m_and (fuel + 1) A i
      = do_logic_ops_loop dom B LMode.m_and fuel
          (change_sblock_status A i Status.bad_sector) (i + 1) := by
  simp only [do_logic_ops_loop, hidx]
  rw [if_neg (not_not_intro hinc), if_neg (not_not_intro hfin)]
  simp only [find_chunk_and B sb hsz, hfc]
  rw [if_pos (Or.inl (le_refl 0))]

theorem and_step_away (dom : List Block) (B : List Sblock) (fuel : Nat)
    (A : List Sblock) (i : Nat) (sb s : Sblock) (hidx : A[i]? = some sb)
    (hinc : domainIncludes dom sb.toBlock = true)
    (hfin : sb.status = Status.finished) (hsz : 0 < sb.size)
    (hfc : B.find? (fun t => decide (t.status = Status.finished)
      && decide (sb.pos < t.stop)) = some s)
    (hss : sb.stop ≤ s.pos) :
    do_logic_ops_loop dom B LMode.m_and (fuel + 1) A i
      = do_logic_ops_loop dom B LMode.m_and fuel
          (change_sblock_status A i Status.bad_sector) (i + 1) := by
  simp only [do_logic_ops_loop, hidx]
  rw [if_neg (not_not_intro hinc), if_neg (not_not_intro hfin)]
  simp only [find_chunk_and B sb hsz, hfc]
  rw [if_pos (Or.inr (by omega : sb.stop ≤ max sb.pos s.pos))]

theorem and_step_whole (dom : List Block) (B : List Sblock) (fuel : Nat)
    (A : List Sblock) (i : Nat) (sb s : Sblock) (hidx : A[i]? = some sb)
    (hinc : domainIncludes dom sb.toBlock = true)
    (hfin : sb.status = Status.finished) (hsz : 0 < sb.size)
    (hfc : B.find? (fun t => decide (t.status = Status.finished)
      && decide (sb.pos < t.stop)) = some s)
    (hle1 : s.pos ≤ sb.pos) (hle2 : sb.stop ≤ s.stop) :
    do_logic_ops_loop dom B LMode.m_and (fuel + 1) A i
      = do_logic_ops_loop dom B LMode.m_and fuel A (i + 1) := by
  have hsbe : sb.stop = sb.pos + sb.size := rfl
  simp only [do_logic_ops_loop, hidx]
  rw [if_neg (not_not_intro hinc), if_neg (not_not_intro hfin)]
  simp only [find_chunk_and B sb hsz, hfc]
  rw [if_neg (by omega :
    ¬ (min sb.stop s.stop - max sb.pos s.pos ≤ 0 ∨ sb.stop ≤ max sb.pos s.pos))]
  rw [if_pos (show (⟨max sb.pos s.pos,
      min sb.stop s.stop - max sb.pos s.pos⟩ : Block) = sb.toBlock from by
    rw [max_eq_left hle1, min_eq_left hle2,
      show sb.stop - sb.pos = sb.size from by omega]
    rfl)]

theorem and_step_front (dom : List Block) (B : List Sblock) (fuel : Nat)
    (A : List Sblock) (i : Nat) (sb s : Sblock) (hidx : A[i]? = some sb)
    (hinc : domainIncludes dom sb.toBlock = true)
    (hfin : sb.status = Status.finished) (hsz : 0 < sb.size)
    (hfc : B.find? (fun t => decide (t.status = Status.finished)
      && decide (sb.pos < t.stop)) = some s)
    (hle1 : s.pos ≤ sb.pos) (hgt : sb.pos < s.stop) (hlt2 : s.stop < sb.stop) :
    do_logic_ops_loop dom B LMode.m_and (fuel + 1) A i
      = do_logic_ops_loop dom B LMode.m_and fuel
          (split_sblock_by A s.stop i) (i + 1) := by
  have hsbe : sb.stop = sb.pos + sb.size := rfl
  simp only [do_logic_ops_loop, hidx]
  rw [if_neg (not_not_intro hinc), if_neg (not_not_intro hfin)]
  simp only [find_chunk_and B sb hsz, hfc]
  rw [if_neg (by omega :
    ¬ (min sb.stop s.stop - max sb.pos s.pos ≤ 0 ∨ sb.stop ≤ max sb.pos s.pos))]
  rw [if_neg (by
    intro hcon
    have h2 : min sb.stop s.stop - max sb.pos s.pos = sb.size :=
      congrArg Block.size hcon
    omega)]
  rw [if_pos (by omega : max sb.pos s.pos = sb.pos)]
  rw [show (⟨max sb.pos s.pos, min sb.stop s.stop - max sb.pos s.pos⟩
      : Block).stop = s.stop from by
    show max sb.pos s.pos + (min sb.stop s.stop - max sb.pos s.pos) = s.stop
    omega]

theorem and_step_mid (dom : List Block) (B : List Sblock) (fuel : Nat)
    (A : List Sblock) (i : Nat) (sb s : Sblock) (hidx : A[i]? = some sb)
    (hinc : domainIncludes dom sb.toBlock = true)
    (hfin : sb.status = Status.finished) (hsz : 0 < sb.size)
    (hfc : B.find? (fun t => decide (t.status = Status.finished)
      && decide (sb.pos < t.stop)) = some s)
    (hgt : sb.pos < s.pos) (hlt : s.pos < sb.stop) (hspos : s.pos < s.stop) :
    do_logic_ops_loop dom B LMode.m_and (fuel + 1) A i
      = do_logic_ops_loop dom B LMode.m_and fuel
          (change_chunk_status A ⟨sb.pos, s.pos - sb.pos⟩ Status.bad_sector) i := by
  have hsbe : sb.stop = sb.pos + sb.size := rfl
  simp only [do_logic_ops_loop, hidx]
  rw [if_neg (not_not_intro hinc), if_neg (not_not_intro hfin)]
  simp only [find_chunk_and B sb hsz, hfc]
  rw [if_neg (by omega :
    ¬ (min sb.stop s.stop - max sb.pos s.pos ≤ 0 ∨ sb.stop ≤ max sb.pos s.pos))]
  rw [if_neg (by
    intro hcon
    have h2 : max sb.pos s.pos = sb.pos := congrArg Block.pos hcon
    omega)]
  rw [if_neg (by omega : ¬ max sb.pos s.pos = sb.pos)]
  rw [show max sb.pos s.pos = s.pos from by omega]

theorem andTarget_eq_statusAt (dom : List Block) (B : List Sblock) :
    ∀ S : List Sblock, (∀ t ∈ S, domainIncludes dom t.toBlock = false) →
      ∀ p, andTarget dom B S p = statusAt S p := by
  intro S
  induction S with
  | nil => intro _ p; rfl
  | cons sb rest ih =>
      intro hni p
      rw [andTarget_cons, statusAt_cons]
      by_cases hcov : sb.pos ≤ p ∧ p < sb.stop
      · rw [if_pos hcov, if_pos hcov, andPayload, if_neg (by
          rintro ⟨h1, -⟩
          rw [hni sb (List.mem_cons_self _ _)] at h1
          exact Bool.false_ne_true h1)]
      · rw [if_neg hcov, if_neg hcov,
          ih (fun t ht => hni t (List.mem_cons_of_mem _ ht)) p]

theorem find?_pred_facts {B : List Sblock} {q : Int} {s : Sblock}
    (h : B.find? (fun t => decide (t.status = Status.finished)
      && decide (q < t.stop)) = some s) :
    s ∈ B ∧ s.status = Status.finished ∧ q < s.stop := by
  have hmem := List.mem_of_find?_eq_some h
  have hpred := List.find?_some h
  simp only [Bool.and_eq_true, decide_eq_true_eq] at hpred
  exact ⟨hmem, hpred.1, hpred.2⟩

theorem and_loop_spec (dom : List Block) (B : List Sblock)
    (hdom : DomBounded dom) (hcB : SbChain B) (hpB : PosSizes B) :
    ∀ (fuel : Nat) (P S : List Sblock),
      SbChain (P ++ S) → PosSizes (P ++ S) → andMeasure S < fuel →
      ∃ R, do_logic_ops_loop dom B LMode.m_and fuel (P ++ S) P.length = some R
        ∧ PosSizes R
        ∧ ∀ p, statusAt R p = (statusAt P p).or (andTarget dom B S p) := by
  intro fuel
  induction fuel with
  | zero => intro P S _ _ hm; omega
  | succ fuel ihf =>
      intro P S hc hp hm
      cases S with
      | nil =>
          have hnone : (P ++ ([] : List Sblock))[P.length]? = none :=
            List.getElem?_eq_none (by simp)
          refine ⟨P ++ [], ?_, hp, fun p => ?_⟩
          · simp only [do_logic_ops_loop, hnone]
          · rw [List.append_nil, andTarget_nil]
            cases statusAt P p <;> rfl
      | cons sb rest =>
          have hidx := getElem?_append_len P sb rest
          have hsbsz : 0 < sb.size :=
            hp sb (List.mem_append_right _ (List.mem_cons_self _ _))
          have hsbe : sb.stop = sb.pos + sb.size := rfl
          have hcS : SbChain (sb :: rest) := by
            rw [SbChain]
            exact (List.chain'_append.mp hc).2.1
          have hpS : PosSizes (sb :: rest) :=
            fun t ht => hp t (List.mem_append_right _ ht)
          by_cases hinc : domainIncludes dom sb.toBlock = true
          · by_cases hfin : sb.status = Status.finished
            · cases hfc : B.find? (fun t => decide (t.status = Status.finished)
                  && decide (sb.pos < t.stop)) with
              | none =>
                  rw [and_step_none dom B fuel _ _ sb hidx hinc hfin hsbsz hfc,
                    change_sblock_at_len]
                  rw [show P ++ ({ sb with status := Status.bad_sector } : Sblock)
                        :: rest
                      = (P ++ [{ sb with status := Status.bad_sector }]) ++ rest
                      from by simp,
                    show P.length + 1
                      = (P ++ [({ sb with status := Status.bad_sector }
                          : Sblock)]).length from by simp]
                  obtain ⟨R, hR, hps, hmap⟩ := ihf
                    (P ++ [{ sb with status := Status.bad_sector }]) rest
                    (by
                      rw [List.append_assoc]
                      exact sbChain_mid1 P rest sb _ rfl rfl hc)
                    (by
                      rw [List.append_assoc]
                      intro t ht
                      rcases List.mem_append.mp ht with h1 | h2
                      · exact hp t (List.mem_append_left _ h1)
                      · rcases List.mem_cons.mp h2 with rfl | h3
                        · exact hsbsz
                        · exact hp t (List.mem_append_right _
                            (List.mem_cons_of_mem _ h3)))
                    (by
                      rw [andMeasure_cons] at hm
                      omega)
                  refine ⟨R, hR, hps, fun p => ?_⟩
                  rw [hmap p]
                  refine and_rewrite_step dom B P sb
                    { sb with status := Status.bad_sector } rest rfl rfl ?_ p
                  intro q hq1 hq2
                  have hFB : finishedInB B q = false :=
                    finishedInB_false_of_none hfc hq1
                  simp [andPayload, hinc, hfin, hFB]
              | some s =>
                  obtain ⟨hsB, hsfin, hsstop⟩ := find?_pred_facts hfc
                  have hssz : 0 < s.size := hpB s hsB
                  have hsse : s.stop = s.pos + s.size := rfl
                  by_cases haway : sb.stop ≤ s.pos
                  · rw [and_step_away dom B fuel _ _ sb s hidx hinc hfin hsbsz
                        hfc haway, change_sblock_at_len]
                    rw [show P ++ ({ sb with status := Status.bad_sector }
                          : Sblock) :: rest
                        = (P ++ [{ sb with status := Status.bad_sector }]) ++ rest
                        from by simp,
                      show P.length + 1
                        = (P ++ [({ sb with status := Status.bad_sector }
                            : Sblock)]).length from by simp]
                    obtain ⟨R, hR, hps, hmap⟩ := ihf
                      (P ++ [{ sb with status := Status.bad_sector }]) rest
                      (by
                        rw [List.append_assoc]
                        exact sbChain_mid1 P rest sb _ rfl rfl hc)
                      (by
                        rw [List.append_assoc]
                        intro t ht
                        rcases List.mem_append.mp ht with h1 | h2
                        · exact hp t (List.mem_append_left _ h1)
                        · rcases List.mem_cons.mp h2 with rfl | h3
                          · exact hsbsz
                          · exact hp t (List.mem_append_right _
                              (List.mem_cons_of_mem _ h3)))
                      (by
                        rw [andMeasure_cons] at hm
                        omega)
                    refine ⟨R, hR, hps, fun p => ?_⟩
                    rw [hmap p]
                    refine and_rewrite_step dom B P sb
                      { sb with status := Status.bad_sector } rest rfl rfl ?_ p
                    intro q hq1 hq2
                    have hFB : finishedInB B q = false :=
                      finishedInB_false_before hcB hpB hfc hq1 (by omega)
                    simp [andPayload, hinc, hfin, hFB]
                  · by_cases hwhole : s.pos ≤ sb.pos ∧ sb.stop ≤ s.stop
                    · rw [and_step_whole dom B fuel _ _ sb s hidx hinc hfin
                          hsbsz hfc hwhole.1 hwhole.2]
                      rw [show P ++ sb :: rest = (P ++ [sb]) ++ rest from by simp,
                        show P.length + 1 = (P ++ [sb]).length from by simp]
                      obtain ⟨R, hR, hps, hmap⟩ := ihf (P ++ [sb]) rest
                        (by
                          rw [List.append_assoc]
                          exact hc)
                        (by
                          rw [List.append_assoc]
                          exact hp)
                        (by
                          rw [andMeasure_cons] at hm
                          omega)
                      refine ⟨R, hR, hps, fun p => ?_⟩
                      rw [hmap p]
                      refine and_rewrite_step dom B P sb sb rest rfl rfl ?_ p
                      intro q hq1 hq2
                      have hFB : finishedInB B q = true :=
                        finishedInB_of_cover hsB hsfin (by omega) (by omega)
                      simp [andPayload, hinc, hfin, hFB]
                    · by_cases hfront : s.pos ≤ sb.pos
                      · -- prefix of sb is finished in B, split at s.stop
                        have hslt : s.stop < sb.stop := by
                          rcases not_and_or.mp hwhole with h1 | h2
                          · exact absurd hfront h1
                          · omega
                        have hgt : sb.pos < s.stop := hsstop
                        rw [and_step_front dom B fuel _ _ sb s hidx hinc hfin
                            hsbsz hfc hfront hgt hslt,
                          split_sblock_at_len P sb rest s.stop hgt hslt]
                        rw [show P ++ (⟨sb.pos, s.stop - sb.pos, sb.status⟩
                              : Sblock) :: ⟨s.stop, sb.stop - s.stop, sb.status⟩
                              :: rest
                            = (P ++ [⟨sb.pos, s.stop - sb.pos, sb.status⟩])
                              ++ ⟨s.stop, sb.stop - s.stop, sb.status⟩ :: rest
                            from by simp,
                          show P.length + 1
                            = (P ++ [(⟨sb.pos, s.stop - sb.pos, sb.status⟩
                                : Sblock)]).length from by simp]
                        obtain ⟨R, hR, hps, hmap⟩ := ihf
                          (P ++ [⟨sb.pos, s.stop - sb.pos, sb.status⟩])
                          (⟨s.stop, sb.stop - s.stop, sb.status⟩ :: rest)
                          (by
                            rw [List.append_assoc]
                            exact sbChain_mid2 P rest sb _ _ rfl
                              (by
                                show sb.pos + (s.stop - sb.pos) = s.stop
                                ring)
                              (by
                                show s.stop + (sb.stop - s.stop) = sb.stop
                                ring) hc)
                          (by
                            rw [List.append_assoc]
                            intro t ht
                            rcases List.mem_append.mp ht with h1 | h2
                            · exact hp t (List.mem_append_left _ h1)
                            · rcases List.mem_cons.mp h2 with rfl | h3
                              · show 0 < s.stop - sb.pos
                                omega
                              · rcases List.mem_cons.mp h3 with rfl | h4
                                · show 0 < sb.stop - s.stop
                                  omega
                                · exact hp t (List.mem_append_right _
                                    (List.mem_cons_of_mem _ h4)))
                          (by
                            have hmc : andMeasure (sb :: rest)
                                = (2 * sb.size.toNat + 1 + 2 * sb.size.toNat)
                                  + andMeasure rest := by
                              rw [andMeasure_cons, if_pos hfin]
                            rw [hmc] at hm
                            rw [andMeasure_cons,
                              if_pos (show (⟨s.stop, sb.stop - s.stop, sb.status⟩
                                : Sblock).status = Status.finished from hfin)]
                            show 2 * (sb.stop - s.stop).toNat + 1
                              + 2 * (sb.stop - s.stop).toNat + andMeasure rest
                              < fuel
                            omega)
                        refine ⟨R, hR, hps, fun p => ?_⟩
                        rw [hmap p]
                        refine and_split_step dom B P sb
                          ⟨sb.pos, s.stop - sb.pos, sb.status⟩
                          ⟨s.stop, sb.stop - s.stop, sb.status⟩ rest rfl
                          (by
                            show sb.pos + (s.stop - sb.pos) = s.stop
                            ring)
                          (by
                            show s.stop + (sb.stop - s.stop) = sb.stop
                            ring)
                          (by
                            show sb.pos ≤ sb.pos + (s.stop - sb.pos)
                            omega)
                          (by
                            show s.stop ≤ s.stop + (sb.stop - s.stop)
                            omega)
                          ?_ ?_ p
                        · intro q hq1 hq2
                          have hq1' : sb.pos ≤ q := hq1
                          have hq2' : q < sb.pos + (s.stop - sb.pos) := hq2
                          have hFB : finishedInB B q = true :=
                            finishedInB_of_cover hsB hsfin (by omega) (by omega)
                          simp [andPayload, hinc, hfin, hFB]
                        · intro q hq1 hq2
                          have htb : (⟨s.stop, sb.stop - s.stop, sb.status⟩
                              : Sblock).toBlock
                              = (⟨s.stop, sb.stop - s.stop⟩ : Block) := rfl
                          have hinq2 : domainIncludes dom
                              (⟨s.stop, sb.stop - s.stop⟩ : Block) = true := by
                            refine includes_sub hinc ?_ ?_
                            · show sb.pos ≤ s.stop
                              omega
                            · show s.stop + (sb.stop - s.stop) ≤ sb.pos + sb.size
                              omega
                          rw [andPayload, andPayload]
                          rw [if_pos (show domainIncludes dom
                              (⟨s.stop, sb.stop - s.stop, sb.status⟩
                                : Sblock).toBlock = true
                              ∧ (⟨s.stop, sb.stop - s.stop, sb.status⟩
                                : Sblock).status = Status.finished from
                              ⟨by rw [htb]; exact hinq2, hfin⟩)]
                          rw [if_pos (show domainIncludes dom sb.toBlock
                            = true ∧ sb.status = Status.finished from
                            ⟨hinc, hfin⟩)]
                      · -- a left part of sb is not finished in B: chunk it bad
                        have hgt2 : sb.pos < s.pos := by omega
                        have hlt2 : s.pos < sb.stop := by omega
                        have hcstop : (⟨sb.pos, s.pos - sb.pos⟩ : Block).stop
                            = s.pos := by
                          show sb.pos + (s.pos - sb.pos) = s.pos
                          ring
                        rw [and_step_mid dom B fuel _ _ sb s hidx hinc hfin
                            hsbsz hfc hgt2 hlt2 (by omega),
                          change_chunk_at_len P sb rest ⟨sb.pos, s.pos - sb.pos⟩
                            Status.bad_sector hc hp rfl (by omega : sb.pos <
                              (⟨sb.pos, s.pos - sb.pos⟩ : Block).stop)
                            (by
                              rw [hcstop]
                              omega),
                          hcstop]
                        obtain ⟨R, hR, hps, hmap⟩ := ihf P
                          (⟨sb.pos, s.pos - sb.pos, Status.bad_sector⟩
                            :: ⟨s.pos, sb.stop - s.pos, sb.status⟩ :: rest)
                          (sbChain_mid2 P rest sb _ _ rfl
                            (by
                              show sb.pos + (s.pos - sb.pos) = s.pos
                              ring)
                            (by
                              show s.pos + (sb.stop - s.pos) = sb.stop
                              ring) hc)
                          (by
                            intro t ht
                            rcases List.mem_append.mp ht with h1 | h2
                            · exact hp t (List.mem_append_left _ h1)
                            · rcases List.mem_cons.mp h2 with rfl | h3
                              · show 0 < s.pos - sb.pos
                                omega
                              · rcases List.mem_cons.mp h3 with rfl | h4
                                · show 0 < sb.stop - s.pos
                                  omega
                                · exact hp t (List.mem_append_right _
                                    (List.mem_cons_of_mem _ h4)))
                          (by
                            have hmc : andMeasure (sb :: rest)
                                = (2 * sb.size.toNat + 1 + 2 * sb.size.toNat)
                                  + andMeasure rest := by
                              rw [andMeasure_cons, if_pos hfin]
                            rw [hmc] at hm
                            rw [andMeasure_cons, andMeasure_cons,
                              if_neg (show ¬ (⟨sb.pos, s.pos - sb.pos,
                                  Status.bad_sector⟩ : Sblock).status
                                  = Status.finished from by simp),
                              if_pos (show (⟨s.pos, sb.stop - s.pos, sb.status⟩
                                : Sblock).status = Status.finished from hfin)]
                            show 2 * (s.pos - sb.pos).toNat + 1 + 0
                              + (2 * (sb.stop - s.pos).toNat + 1
                                + 2 * (sb.stop - s.pos).toNat + andMeasure rest)
                              < fuel
                            omega)
                        refine ⟨R, hR, hps, fun p => ?_⟩
                        rw [hmap p]
                        rw [and_chunk_step dom B sb
                          ⟨sb.pos, s.pos - sb.pos, Status.bad_sector⟩
                          ⟨s.pos, sb.stop - s.pos, sb.status⟩ rest rfl
                          (by
                            show sb.pos + (s.pos - sb.pos) = s.pos
                            ring)
                          (by
                            show s.pos + (sb.stop - s.pos) = sb.stop
                            ring)
                          (by
                            show sb.pos ≤ sb.pos + (s.pos - sb.pos)
                            omega)
                          (by
                            show s.pos ≤ s.pos + (sb.stop - s.pos)
                            omega)
                          ?_ ?_ p]
                        · intro q hq1 hq2
                          have hq1' : sb.pos ≤ q := hq1
                          have hq2' : q < sb.pos + (s.pos - sb.pos) := hq2
                          have hFB : finishedInB B q = false :=
                            finishedInB_false_before hcB hpB hfc hq1'
                              (by omega)
                          simp [andPayload, hinc, hfin, hFB]
                        · intro q hq1 hq2
                          have htb : (⟨s.pos, sb.stop - s.pos, sb.status⟩
                              : Sblock).toBlock
                              = (⟨s.pos, sb.stop - s.pos⟩ : Block) := rfl
                          have hinq2 : domainIncludes dom
                              (⟨s.pos, sb.stop - s.pos⟩ : Block) = true := by
                            refine includes_sub hinc ?_ ?_
                            · show sb.pos ≤ s.pos
                              omega
                            · show s.pos + (sb.stop - s.pos) ≤ sb.pos + sb.size
                              omega
                          rw [andPayload, andPayload]
                          rw [if_pos (show domainIncludes dom
                              (⟨s.pos, sb.stop - s.pos, sb.status⟩
                                : Sblock).toBlock = true
                              ∧ (⟨s.pos, sb.stop - s.pos, sb.status⟩
                                : Sblock).status = Status.finished from
                              ⟨by rw [htb]; exact hinq2, hfin⟩)]
                          rw [if_pos (show domainIncludes dom sb.toBlock
                            = true ∧ sb.status = Status.finished from
                            ⟨hinc, hfin⟩)]
            · -- included but not finished: skipped
              rw [and_step_notfin dom B fuel _ _ sb hidx hinc hfin]
              rw [show P ++ sb :: rest = (P ++ [sb]) ++ rest from by simp,
                show P.length + 1 = (P ++ [sb]).length from by simp]
              obtain ⟨R, hR, hps, hmap⟩ := ihf (P ++ [sb]) rest
                (by
                  rw [List.append_assoc]
                  exact hc)
                (by
                  rw [List.append_assoc]
                  exact hp)
                (by
                  rw [andMeasure_cons] at hm
                  omega)
              refine ⟨R, hR, hps, fun p => ?_⟩
              rw [hmap p]
              refine and_rewrite_step dom B P sb sb rest rfl rfl ?_ p
              intro q hq1 hq2
              simp [andPayload, hfin]
          · by_cases hlt : domainLt dom sb.toBlock = true
            · -- behind the domain: the loop stops
              rw [and_step_break dom B fuel _ _ sb hidx hinc hlt]
              refine ⟨P ++ sb :: rest, rfl, hp, fun p => ?_⟩
              rw [statusAt_append, andTarget_eq_statusAt dom B (sb :: rest)
                (not_included_after_domain hdom hcS hpS hlt) p]
            · -- outside the domain: skipped
              rw [and_step_skip dom B fuel _ _ sb hidx hinc hlt]
              rw [show P ++ sb :: rest = (P ++ [sb]) ++ rest from by simp,
                show P.length + 1 = (P ++ [sb]).length from by simp]
              obtain ⟨R, hR, hps, hmap⟩ := ihf (P ++ [sb]) rest
                (by
                  rw [List.append_assoc]
                  exact hc)
                (by
                  rw [List.append_assoc]
                  exact hp)
                (by
                  rw [andMeasure_cons] at hm
                  omega)
              refine ⟨R, hR, hps, fun p => ?_⟩
              rw [hmap p]
              refine and_rewrite_step dom B P sb sb rest rfl rfl ?_ p
              intro q hq1 hq2
              have hincF : domainIncludes dom sb.toBlock = false := by
                simpa using hinc
              simp [andPayload, hincF]

/-- **C1 (amended).** For chained, positively-sized mapfiles over a bounded
domain, the AND operation maps every byte to `andTarget`: a byte of a
domain-included sblock that is `finished` in A becomes `finished` when also
`finished` in B and `bad_sector` otherwise, and every other byte keeps A's
status (it does *not* become `bad_sector`); the concrete example of the spec
also holds. -/
theorem do_logic_ops_and_spec (dom : List Block) (A B : List Sblock)
    (hdom : DomBounded dom) (hcA : SbChain A) (hpA : PosSizes A)
    (hcB : SbChain B) (hpB : PosSizes B) :
    (∃ R, do_logic_ops dom LMode.m_and A B = some R
      ∧ ∀ p, statusAt R p = andTarget dom B A p)
    ∧ do_logic_ops [⟨0, 2 ^ 63 - 1⟩] LMode.m_and
        [⟨0, 4096, .finished⟩, ⟨4096, 4096, .bad_sector⟩]
        [⟨0, 2048, .finished⟩, ⟨2048, 6144, .bad_sector⟩]
      = some [⟨0, 2048, .finished⟩, ⟨2048, 6144, .bad_sector⟩] := by
  refine ⟨?_, by decide⟩
  obtain ⟨R0, hR0, hps0, hmap⟩ := and_loop_spec dom B hdom hcB hpB
    (logicFuel A) [] A hcA hpA (by
      have := andMeasure_le A
      rw [logicFuel]
      omega)
  have hR0' : do_logic_ops_loop dom B LMode.m_and (logicFuel A) A 0
      = some R0 := hR0
  refine ⟨compact_sblock_vector R0, ?_, fun p => ?_⟩
  · rw [do_logic_ops, hR0']
    rfl
  · rw [statusAt_compact (fun s hs => le_of_lt (hps0 s hs)) p, hmap p]
    rfl

/-- Counterexample to C1 as frozen: byte 0 of the domain `[0,1)` is finished
in neither A nor B, so the claim requires `bad_sector`, but the AND loop
(`ddrescuelog.cc:166`, `if sb.status() != finished continue`) leaves it
`non_tried`. -/
theorem and_keeps_nonfinished_cex :
    do_logic_ops [⟨0, 1⟩] LMode.m_and [⟨0, 1, .non_tried⟩]
        [⟨0, 1, .non_tried⟩]
      = some [⟨0, 1, .non_tried⟩]
    ∧ Status.non_tried ≠ Status.bad_sector := by decide

/-- Witness for C1 at the spec's own example over the domain `[0,8192)`:
byte 1024 (finished in both) stays `finished`; byte 3000 (finished in A
only) becomes `bad_sector`. -/
theorem do_logic_ops_and_spec_witness :
    statusAt ((do_logic_ops [⟨0, 8192⟩] LMode.m_and
        [⟨0, 4096, .finished⟩, ⟨4096, 4096, .bad_sector⟩]
        [⟨0, 2048, .finished⟩, ⟨2048, 6144, .bad_sector⟩]).getD []) 1024
      = some Status.finished
    ∧ statusAt ((do_logic_ops [⟨0, 8192⟩] LMode.m_and
        [⟨0, 4096, .finished⟩, ⟨4096, 4096, .bad_sector⟩]
        [⟨0, 2048, .finished⟩, ⟨2048, 6144, .bad_sector⟩]).getD []) 3000
      = some Status.bad_sector := by
  obtain ⟨⟨R, hR, hmap⟩, -⟩ := do_logic_ops_and_spec [⟨0, 8192⟩]
    [⟨0, 4096, .finished⟩, ⟨4096, 4096, .bad_sector⟩]
    [⟨0, 2048, .finished⟩, ⟨2048, 6144, .bad_sector⟩]
    (by intro d hd; fin_cases hd <;> simp [domainEnd, Block.stop])
    (by simp [SbChain, List.chain'_cons, Sblock.stop])
    (by intro s hs; fin_cases hs <;> norm_num)
    (by simp [SbChain, List.chain'_cons, Sblock.stop])
    (by intro s hs; fin_cases hs <;> norm_num)
  rw [hR]
  simp only [Option.getD_some]
  constructor
  · rw [hmap 1024]
    decide
  · rw [hmap 3000]
    decide
